import Mathlib

/-!
Verification of the netlink traffic-control codec (`netlink-packet-route`,
`rtnl/tc`): the `TcMessage` header, the TLV attribute stream with its
kind-parameterized options dispatch, and the per-family options payloads
(`Qdisc`, `Class`, `Filter`).

The Rust sources under `rtnl/tc` (message.rs, nlas/qdisc, nlas/class,
nlas/filter, constants.rs) are embedded directly.  The generic NLA
machinery they build on (`NlaBuffer`, `NlasIterator`, `TcMessageBuffer`,
`parse_string`, `parse_u8`, the `Nla` trait's emission code and the tc
`Nla`/`Stats`/`Stats2` declarations) lives in parts of the repository not
available here; those definitions are modelled from the specification's
description of the wire layout and iterator rules, and are marked
`Modelled from the spec:` below.

Byte buffers are `List Nat`; genuine wire buffers hold values below 256,
and every numeric read reduces bytes mod 256, so the embedding agrees with
the `u8` semantics on all real buffers and is total on the rest.  Strings
are byte lists (UTF-8 validity is not modelled).  Fallible operations
return `Except CodecError`; `CodecError` is the spec's error taxonomy.
-/

namespace Netlink

/-- Byte buffers: lists of naturals.  Real wire buffers have entries below 256. -/
abbrev Bytes := List Nat

/-- Modelled from the spec: `align_up(n, 4)`, the 4-byte alignment rule of the
TLV encoding (stream offsets advance by `align_up(declared_length, 4)`). -/
def align4 (n : Nat) : Nat := (n + 3) / 4 * 4

/-- Little-endian encoding of `x` into exactly `w` bytes (each reduced mod 256,
modelling a fixed-width machine integer write). -/
def leBytes : Nat → Nat → Bytes
  | 0, _ => []
  | w + 1, x => x % 256 :: leBytes w (x / 256)

/-- Little-endian read of `w` bytes off the front of a buffer.  Missing bytes
read as 0; the codec length-checks every buffer before reading it. -/
def readLE : Nat → Bytes → Nat
  | 0, _ => 0
  | _ + 1, [] => 0
  | w + 1, b :: rest => b % 256 + 256 * readLE w rest

/-- Read a 16-bit little-endian field at byte offset `off`. -/
def readU16 (buf : Bytes) (off : Nat) : Nat := readLE 2 (buf.drop off)

/-- Read a 32-bit little-endian field at byte offset `off`. -/
def readU32 (buf : Bytes) (off : Nat) : Nat := readLE 4 (buf.drop off)

/-- Read a 64-bit little-endian field at byte offset `off`. -/
def readU64 (buf : Bytes) (off : Nat) : Nat := readLE 8 (buf.drop off)

/-- Read one byte at offset `off`. -/
def readU8 (buf : Bytes) (off : Nat) : Nat := readLE 1 (buf.drop off)

/-- Reinterpret an unsigned 32-bit value as a signed `i32` (two's complement). -/
def u32ToI32 (u : Nat) : Int := if u < 2 ^ 31 then (u : Int) else (u : Int) - 2 ^ 32

/-- Reinterpret a signed `i32` as its unsigned 32-bit representation. -/
def i32ToU32 (i : Int) : Nat := (i % 2 ^ 32).toNat

/-- Error taxonomy of the codec, as laid out in the spec: length violations,
fields whose raw bytes cannot be interpreted under their declared type, and
the strict builder path's unsupported-kind condition. -/
inductive CodecError
  | lengthError
  | malformedField
  | unsupportedConstruction
deriving DecidableEq, Repr

/-! ## Data model

`TcHeader`, `TcMessage` and the per-family options types follow the Rust
declarations in `rtnl/tc` directly; `DefaultNla`, `TcStats`, `TcStats2` and
the `Nla` variant list are modelled from the spec's data-model section (the
tc `nlas` module is not among the available sources). -/

/-- Fixed 20-byte tc message header (`TcHeader` in message.rs). -/
structure TcHeader where
  family : Nat
  index : Int
  handle : Nat
  parent : Nat
  info : Nat
deriving DecidableEq, Repr

/-- Modelled from the spec: the catch-all attribute arm preserving the raw
type tag and raw payload bytes (`DefaultNla` of the missing nla module). -/
structure DefaultNla where
  kind : Nat
  value : Bytes
deriving DecidableEq, Repr

/-- Modelled from the spec: the fixed-size legacy statistics record decoded
from the 40-byte `TCA_STATS` payload (`Stats` of the missing nla module). -/
structure TcStats where
  bytes : Nat
  packets : Nat
  drops : Nat
  overlimits : Nat
  bps : Nat
  pps : Nat
  qlen : Nat
  backlog : Nat
deriving DecidableEq, Repr

/-- Modelled from the spec: one entry of the nested `TCA_STATS2` attribute
stream — basic statistics, queue statistics, or an opaque entry. -/
inductive TcStats2
  | statsBasic (v : Bytes)
  | statsQueue (v : Bytes)
  | other (d : DefaultNla)
deriving DecidableEq, Repr

/-- Qdisc options payload (nlas/qdisc/mod.rs): the zero-length ingress marker
or the opaque fallback holding raw payload bytes. -/
inductive Qdisc
  | ingress
  | other (v : Bytes)
deriving DecidableEq, Repr

/-- Class options payload (nlas/class/mod.rs): only the opaque fallback. -/
inductive TcClass
  | other (v : Bytes)
deriving DecidableEq, Repr

/-- Filter options payload (nlas/filter/mod.rs): only the opaque fallback. -/
inductive TcFilter
  | other (v : Bytes)
deriving DecidableEq, Repr

/-- Modelled from the spec: the tagged attribute variant `Nla<A>` of the tc
nla module, one arm per recognized `TCA_*` tag plus the catch-all. -/
inductive TcNla (α : Type)
  | unspec (v : Bytes)
  | kind (s : Bytes)
  | options (o : α)
  | stats (s : TcStats)
  | xstats (v : Bytes)
  | rate (v : Bytes)
  | fcnt (v : Bytes)
  | stats2 (es : List TcStats2)
  | stab (v : Bytes)
  | chain (v : Bytes)
  | hwOffload (b : Nat)
  | other (d : DefaultNla)
deriving DecidableEq, Repr

/-- A tc message: header plus ordered attribute sequence (`TcMessage<A>`). -/
structure TcMessage (α : Type) where
  header : TcHeader
  nlas : List (TcNla α)
deriving DecidableEq, Repr

/-- The `"ingress"` kind string (`Ingress::KIND`), as bytes. -/
def ingressKind : Bytes := [105, 110, 103, 114, 101, 115, 115]

/-! ## Emission

`TcHeader`'s and `TcMessage`'s `Emitable` impls are in message.rs; the
per-attribute TLV header write (`length = 4 + value_len`, `type = tag`,
value bytes, then zero padding to the 4-byte boundary, length field 16-bit)
is modelled from the spec's emission section.  Emission is functional: it
returns the byte list an `emit` call writes into a zeroed buffer of size
`buffer_len`. -/

/-- Value bytes of one qdisc options payload (`Qdisc::emit_value`):
nothing for the ingress marker, the raw bytes for the opaque arm. -/
def Qdisc.valueBytes : Qdisc → Bytes
  | .ingress => []
  | .other v => v

/-- Value length of one qdisc options payload (`Qdisc::value_len`). -/
def Qdisc.value_len : Qdisc → Nat
  | .ingress => 0
  | .other v => v.length

/-- Value bytes of a class options payload (`Class::emit_value`). -/
def TcClass.valueBytes : TcClass → Bytes
  | .other v => v

/-- Value bytes of a filter options payload (`Filter::emit_value`). -/
def TcFilter.valueBytes : TcFilter → Bytes
  | .other v => v

/-- Modelled from the spec: type tag of a nested `TCA_STATS2` entry
(`TCA_STATS_BASIC = 1`, `TCA_STATS_QUEUE = 3`, raw tag for the catch-all). -/
def TcStats2.tag : TcStats2 → Nat
  | .statsBasic _ => 1
  | .statsQueue _ => 3
  | .other d => d.kind

/-- Modelled from the spec: value bytes of a nested `TCA_STATS2` entry. -/
def TcStats2.valueBytes : TcStats2 → Bytes
  | .statsBasic v => v
  | .statsQueue v => v
  | .other d => d.value

/-- Modelled from the spec: value length of a nested `TCA_STATS2` entry. -/
def TcStats2.value_len (e : TcStats2) : Nat := e.valueBytes.length

/-- Modelled from the spec: one encoded attribute — 2-byte length field
holding `4 + value_len` (a 16-bit write), 2-byte type tag, the value bytes,
and zero padding up to the next 4-byte boundary. -/
def nlaUnit (tag : Nat) (value : Bytes) : Bytes :=
  leBytes 2 (4 + value.length) ++ leBytes 2 tag ++ value ++
    List.replicate (align4 (4 + value.length) - (4 + value.length)) 0

/-- Modelled from the spec: the encoding of one nested statistics entry. -/
def TcStats2.emit (e : TcStats2) : Bytes := nlaUnit e.tag e.valueBytes

/-- Modelled from the spec: the 40-byte `TCA_STATS` value layout — `bytes`
as a 64-bit field at offset 0, then seven 32-bit fields, then 4 bytes of
struct padding. -/
def TcStats.emitValue (s : TcStats) : Bytes :=
  leBytes 8 s.bytes ++ leBytes 4 s.packets ++ leBytes 4 s.drops ++
    leBytes 4 s.overlimits ++ leBytes 4 s.bps ++ leBytes 4 s.pps ++
    leBytes 4 s.qlen ++ leBytes 4 s.backlog ++ [0, 0, 0, 0]

/-- Modelled from the spec: the wire type tag of each attribute arm
(`TCA_UNSPEC = 0`, `TCA_KIND = 1`, `TCA_OPTIONS = 2`, `TCA_STATS = 3`,
`TCA_XSTATS = 4`, `TCA_RATE = 5`, `TCA_FCNT = 6`, `TCA_STATS2 = 7`,
`TCA_STAB = 8`, `TCA_CHAIN = 11`, `TCA_HW_OFFLOAD = 12`; the catch-all
carries its own tag). -/
def TcNla.tag {α : Type} : TcNla α → Nat
  | .unspec _ => 0
  | .kind _ => 1
  | .options _ => 2
  | .stats _ => 3
  | .xstats _ => 4
  | .rate _ => 5
  | .fcnt _ => 6
  | .stats2 _ => 7
  | .stab _ => 8
  | .chain _ => 11
  | .hwOffload _ => 12
  | .other d => d.kind

/-- Modelled from the spec: `emit_value` of each attribute arm.  Raw arms
copy their bytes; the kind string is written NUL-terminated; the options
arm defers to the payload family (`vb`); `Stats2` emits its nested stream
back-to-back. -/
def TcNla.valueBytes {α : Type} (vb : α → Bytes) : TcNla α → Bytes
  | .unspec v => v
  | .kind s => s ++ [0]
  | .options o => vb o
  | .stats s => s.emitValue
  | .xstats v => v
  | .rate v => v
  | .fcnt v => v
  | .stats2 es => (es.map TcStats2.emit).flatten
  | .stab v => v
  | .chain v => v
  | .hwOffload b => [b % 256]
  | .other d => d.value

/-- Modelled from the spec: `value_len` of each attribute arm — 0 for the
ingress marker via `vl`, payload length for raw and string arms (the kind
string counts its NUL terminator), 40 for the legacy statistics record,
and the sum of padded nested encoded lengths for `Stats2`. -/
def TcNla.value_len {α : Type} (vl : α → Nat) : TcNla α → Nat
  | .unspec v => v.length
  | .kind s => s.length + 1
  | .options o => vl o
  | .stats _ => 40
  | .xstats v => v.length
  | .rate v => v.length
  | .fcnt v => v.length
  | .stats2 es => (es.map fun e => align4 (4 + e.value_len)).sum
  | .stab v => v.length
  | .chain v => v.length
  | .hwOffload _ => 1
  | .other d => d.value.length

/-- Modelled from the spec: the encoding of one attribute. -/
def TcNla.emit {α : Type} (vb : α → Bytes) (n : TcNla α) : Bytes :=
  nlaUnit n.tag (n.valueBytes vb)

/-- Modelled from the spec: an attribute's padded encoded length,
`align_up(4 + value_len, 4)` (the `Nla` trait's `buffer_len`). -/
def TcNla.buffer_len {α : Type} (vl : α → Nat) (n : TcNla α) : Nat :=
  align4 (4 + n.value_len vl)

/-- `TcHeader::emit` (message.rs): family byte, three padding bytes the
header emitter leaves zero, then index, handle, parent and info as
little-endian 32-bit fields. -/
def TcHeader.emit (h : TcHeader) : Bytes :=
  h.family % 256 :: 0 :: 0 :: 0 ::
    (leBytes 4 (i32ToU32 h.index) ++ leBytes 4 h.handle ++
      leBytes 4 h.parent ++ leBytes 4 h.info)

/-- `TcMessage::emit` (message.rs): the header followed by each attribute
in original order at its aligned offset. -/
def TcMessage.emit {α : Type} (vb : α → Bytes) (m : TcMessage α) : Bytes :=
  m.header.emit ++ (m.nlas.map (TcNla.emit vb)).flatten

/-- `TcMessage::buffer_len` (message.rs): the fixed header length (20
bytes, `TC_HEADER_LEN`) plus the summed padded attribute lengths. -/
def TcMessage.buffer_len {α : Type} (vl : α → Nat) (m : TcMessage α) : Nat :=
  20 + (m.nlas.map (TcNla.buffer_len vl)).sum

/-! ## Parsing -/

/-- Modelled from the spec: `parse_string` — a NUL-terminated or
NUL-trimmed text value: one trailing NUL byte is trimmed when present.
(UTF-8 validity of kind strings is not modelled; kinds are byte lists.) -/
def parse_string (payload : Bytes) : Except CodecError Bytes :=
  if payload = [] then .ok []
  else if payload.getLast? = some 0 then .ok payload.dropLast
  else .ok payload

/-- Modelled from the spec: `parse_u8` — the payload must be exactly one
byte; any other payload length is a malformed field. -/
def parse_u8 (payload : Bytes) : Except CodecError Nat :=
  match payload with
  | [b] => .ok (b % 256)
  | _ => .error .malformedField

/-- Modelled from the spec: `Stats::parse` over `StatsBuffer::new_checked` —
the payload must cover the 40-byte layout, and each field is read at its
fixed little-endian offset. -/
def TcStats.parse (payload : Bytes) : Except CodecError TcStats :=
  if payload.length < 40 then .error .lengthError
  else
    .ok
      { bytes := readU64 payload 0
        packets := readU32 payload 8
        drops := readU32 payload 12
        overlimits := readU32 payload 16
        bps := readU32 payload 20
        pps := readU32 payload 24
        qlen := readU32 payload 28
        backlog := readU32 payload 32 }

/-- Modelled from the spec: `Stats2::parse` — dispatch on the nested
entry's type tag (with the nested/byte-order flag bits masked off), with
the opaque catch-all for unrecognized tags.  It cannot fail. -/
def TcStats2.parse (tag : Nat) (payload : Bytes) : TcStats2 :=
  if tag % 16384 = 1 then .statsBasic payload
  else if tag % 16384 = 3 then .statsQueue payload
  else .other ⟨tag % 16384, payload⟩

/-- Modelled from the spec: the TLV iterator walk over the nested
`TCA_STATS2` payload (the `NlasIterator` loop in message.rs).  Each step
reads the 2-byte length and 2-byte tag, validates
`4 ≤ length ≤ remaining`, yields the `length - 4` value bytes, and
advances by `align_up(length, 4)`; fewer than 4 remaining bytes end the
iteration.  `fuel` only drives the recursion; any `fuel ≥ buf.length`
computes the iteration exactly. -/
def parseStats2Stream : Nat → Bytes → Except CodecError (List TcStats2)
  | 0, _ => .ok []
  | fuel + 1, buf =>
    if buf.length < 4 then .ok []
    else if readU16 buf 0 < 4 ∨ buf.length < readU16 buf 0 then .error .lengthError
    else
      match parseStats2Stream fuel (buf.drop (align4 (readU16 buf 0))) with
      | .error e => .error e
      | .ok rest =>
        .ok (TcStats2.parse (readU16 buf 2) ((buf.drop 4).take (readU16 buf 0 - 4)) :: rest)

/-- `Qdisc::parse_with_param` (nlas/qdisc/mod.rs): the ingress marker when
the kind string is `"ingress"`, the opaque arm holding the raw payload for
every other kind.  Total — it never fails. -/
def Qdisc.parse_with_param (payload : Bytes) (kind : Bytes) : Except CodecError Qdisc :=
  .ok (if kind = ingressKind then .ingress else .other payload)

/-- `Class::parse_with_param` (nlas/class/mod.rs): always the opaque arm,
ignoring the kind string. -/
def TcClass.parse_with_param (payload : Bytes) (_kind : Bytes) : Except CodecError TcClass :=
  .ok (.other payload)

/-- `Filter::parse_with_param` (nlas/filter/mod.rs): always the opaque arm,
ignoring the kind string. -/
def TcFilter.parse_with_param (payload : Bytes) (_kind : Bytes) : Except CodecError TcFilter :=
  .ok (.other payload)

/-- One step of the attribute dispatch in `Vec<Nla<A>>::parse`
(message.rs): match on the type tag (flag bits masked off, per the spec's
iterator rules), decode the arm's value, and return the possibly updated
kind-string state together with the decoded attribute. -/
def parseTcNla {α : Type} (pwp : Bytes → Bytes → Except CodecError α)
    (kind : Bytes) (tag : Nat) (payload : Bytes) :
    Except CodecError (Bytes × TcNla α) :=
  if tag % 16384 = 0 then .ok (kind, .unspec payload)
  else if tag % 16384 = 1 then
    match parse_string payload with
    | .error e => .error e
    | .ok s => .ok (s, .kind s)
  else if tag % 16384 = 2 then
    match pwp payload kind with
    | .error e => .error e
    | .ok o => .ok (kind, .options o)
  else if tag % 16384 = 3 then
    match TcStats.parse payload with
    | .error e => .error e
    | .ok s => .ok (kind, .stats s)
  else if tag % 16384 = 4 then .ok (kind, .xstats payload)
  else if tag % 16384 = 5 then .ok (kind, .rate payload)
  else if tag % 16384 = 6 then .ok (kind, .fcnt payload)
  else if tag % 16384 = 7 then
    match parseStats2Stream payload.length payload with
    | .error e => .error e
    | .ok es => .ok (kind, .stats2 es)
  else if tag % 16384 = 8 then .ok (kind, .stab payload)
  else if tag % 16384 = 11 then .ok (kind, .chain payload)
  else if tag % 16384 = 12 then
    match parse_u8 payload with
    | .error e => .error e
    | .ok b => .ok (kind, .hwOffload b)
  else .ok (kind, .other ⟨tag % 16384, payload⟩)

/-- `Vec<Nla<A>>::parse` (message.rs): a single left-to-right TLV walk over
the attribute region, threading the most recently observed kind string
(initially empty) into the options dispatch.  Step structure as in
`parseStats2Stream`; any `fuel ≥ buf.length` computes the loop exactly. -/
def parseNlas {α : Type} (pwp : Bytes → Bytes → Except CodecError α) :
    Nat → Bytes → Bytes → Except CodecError (List (TcNla α))
  | 0, _, _ => .ok []
  | fuel + 1, kind, buf =>
    if buf.length < 4 then .ok []
    else if readU16 buf 0 < 4 ∨ buf.length < readU16 buf 0 then .error .lengthError
    else
      match parseTcNla pwp kind (readU16 buf 2) ((buf.drop 4).take (readU16 buf 0 - 4)) with
      | .error e => .error e
      | .ok (kind', nla) =>
        match parseNlas pwp fuel kind' (buf.drop (align4 (readU16 buf 0))) with
        | .error e => .error e
        | .ok rest => .ok (nla :: rest)

/-- `TcHeader::parse` (message.rs) over the fixed-offset accessors of
`TcMessageBuffer` (modelled from the spec's wire layout): family at 0,
signed index at 4, handle at 8, parent at 12, info at 16. -/
def TcHeader.parse (buf : Bytes) : TcHeader :=
  { family := readU8 buf 0
    index := u32ToI32 (readU32 buf 4)
    handle := readU32 buf 8
    parent := readU32 buf 12
    info := readU32 buf 16 }

/-- `TcMessage::parse` (message.rs) over `TcMessageBuffer::new_checked`:
the buffer must cover the 20-byte header; the header fields are read at
their fixed offsets and the attribute region after byte 20 is parsed with
the initially empty kind string. -/
def TcMessage.parse {α : Type} (pwp : Bytes → Bytes → Except CodecError α)
    (buf : Bytes) : Except CodecError (TcMessage α) :=
  if buf.length < 20 then .error .lengthError
  else
    match parseNlas pwp buf.length [] (buf.drop 20) with
    | .error e => .error e
    | .ok nlas => .ok ⟨TcHeader.parse buf, nlas⟩

/-! ## Builder paths and structural helpers (message.rs, nlas/qdisc/mod.rs) -/

/-- `Qdisc::new` (nlas/qdisc/mod.rs): the ingress arm for `"ingress"`, and
the `unimplemented!` abort — modelled as the spec's recoverable
`UnsupportedConstruction` condition — for every other kind string. -/
def Qdisc.new (kind : Bytes) : Except CodecError Qdisc :=
  if kind = ingressKind then .ok .ingress else .error .unsupportedConstruction

/-- `TcMessage::into_parts` (message.rs). -/
def TcMessage.into_parts {α : Type} (m : TcMessage α) : TcHeader × List (TcNla α) :=
  (m.header, m.nlas)

/-- `TcMessage::from_parts` (message.rs). -/
def TcMessage.from_parts {α : Type} (header : TcHeader) (nlas : List (TcNla α)) :
    TcMessage α :=
  ⟨header, nlas⟩

/-- `impl Default for TcMessage` (message.rs) embedded with fuel: the body
`Self { nlas: Vec::new(), ..Default::default() }` recursively calls
`TcMessage::<A>::default()` itself to obtain the base of the struct
update, so each unfolding consumes one unit of fuel and no amount of fuel
produces a value. -/
def TcMessage.defaultFuel (α : Type) : Nat → Option (TcMessage α)
  | 0 => none
  | fuel + 1 =>
    match TcMessage.defaultFuel α fuel with
    | none => none
    | some base => some { base with nlas := [] }

/-! ## Truncation predicates (for the bounds-rejection property) -/

/-- Raw TLV walk marking a truncated stream: some step of the iterator
walk (same advance rule as parsing, value contents ignored) meets an
attribute whose declared length violates `4 ≤ length ≤ remaining`. -/
def rawTruncated : Nat → Bytes → Bool
  | 0, _ => false
  | fuel + 1, buf =>
    if buf.length < 4 then false
    else if readU16 buf 0 < 4 ∨ buf.length < readU16 buf 0 then true
    else rawTruncated fuel (buf.drop (align4 (readU16 buf 0)))

/-- The parser reaches a truncated attribute: the walk meets a declared
length violating `4 ≤ length ≤ remaining`, and every attribute before it
decodes successfully (so the parse loop actually arrives there). -/
def reachesTrunc {α : Type} (pwp : Bytes → Bytes → Except CodecError α) :
    Nat → Bytes → Bytes → Bool
  | 0, _, _ => false
  | fuel + 1, kind, buf =>
    if buf.length < 4 then false
    else if readU16 buf 0 < 4 ∨ buf.length < readU16 buf 0 then true
    else
      match parseTcNla pwp kind (readU16 buf 2) ((buf.drop 4).take (readU16 buf 0 - 4)) with
      | .error _ => false
      | .ok (kind', _) => reachesTrunc pwp fuel kind' (buf.drop (align4 (readU16 buf 0)))

/-! ## Arithmetic and byte-level lemmas -/

theorem align4_le (n : Nat) : n ≤ align4 n := by
  unfold align4; omega

theorem align4_lt (n : Nat) : align4 n < n + 4 := by
  unfold align4; omega

theorem length_leBytes (w x : Nat) : (leBytes w x).length = w := by
  induction w generalizing x with
  | zero => rfl
  | succ w ih => simp [leBytes, ih]

theorem readLE_leBytes_append (w x : Nat) (r : Bytes) :
    readLE w (leBytes w x ++ r) = x % 256 ^ w := by
  induction w generalizing x with
  | zero => simp [leBytes, readLE, Nat.mod_one]
  | succ w ih =>
    have hqm : x / 256 % 256 ^ w < 256 ^ w :=
      Nat.mod_lt _ (Nat.pos_pow_of_pos _ (by norm_num))
    have hr : x % 256 < 256 := Nat.mod_lt _ (by norm_num)
    have hsplit : x = 256 ^ (w + 1) * (x / 256 / 256 ^ w) +
        (x % 256 + 256 * (x / 256 % 256 ^ w)) := by
      have hq := Nat.div_add_mod (x / 256) (256 ^ w)
      have hx := Nat.div_add_mod x 256
      rw [Nat.pow_succ]; nlinarith
    have hlt : x % 256 + 256 * (x / 256 % 256 ^ w) < 256 ^ (w + 1) := by
      rw [Nat.pow_succ]; nlinarith
    calc readLE (w + 1) (leBytes (w + 1) x ++ r)
        = x % 256 % 256 + 256 * readLE w (leBytes w (x / 256) ++ r) := rfl
      _ = x % 256 + 256 * (x / 256 % 256 ^ w) := by
          rw [Nat.mod_mod_of_dvd _ dvd_rfl, ih]
      _ = x % 256 ^ (w + 1) := by
          conv_rhs => rw [hsplit]
          rw [Nat.mul_add_mod, Nat.mod_eq_of_lt hlt]

theorem readLE_lt (w : Nat) (b : Bytes) : readLE w b < 256 ^ w := by
  induction w generalizing b with
  | zero => simp [readLE]
  | succ w ih =>
    cases b with
    | nil =>
      simp only [readLE]
      exact Nat.pos_pow_of_pos _ (by norm_num)
    | cons x rest =>
      have h1 : x % 256 < 256 := Nat.mod_lt _ (by norm_num)
      have h2 := ih rest
      simp only [readLE, Nat.pow_succ]
      nlinarith

/-- Dropping at or past an initial segment skips it entirely. -/
theorem drop_append_of_le {a : Bytes} (b : Bytes) {off : Nat} (h : a.length ≤ off) :
    (a ++ b).drop off = b.drop (off - a.length) := by
  rw [List.drop_append_eq_append_drop, List.drop_eq_nil_of_le h, List.nil_append]

/-! ## Lemmas about one encoded attribute -/

theorem nlaUnit_length (t : Nat) (v : Bytes) :
    (nlaUnit t v).length = align4 (4 + v.length) := by
  have h := align4_le (4 + v.length)
  simp [nlaUnit, length_leBytes, List.length_replicate]
  omega

theorem nlaUnit_ge_four (t : Nat) (v : Bytes) : 4 ≤ (nlaUnit t v).length := by
  rw [nlaUnit_length]
  have := align4_le (4 + v.length)
  omega

theorem readU16_nlaUnit_len (t : Nat) (v : Bytes) (r : Bytes)
    (h : 4 + v.length ≤ 65535) : readU16 (nlaUnit t v ++ r) 0 = 4 + v.length := by
  have : nlaUnit t v ++ r
      = leBytes 2 (4 + v.length) ++ (leBytes 2 t ++ v ++
          List.replicate (align4 (4 + v.length) - (4 + v.length)) 0 ++ r) := by
    simp [nlaUnit]
  rw [readU16, List.drop_zero, this, readLE_leBytes_append]
  exact Nat.mod_eq_of_lt (by norm_num; omega)

theorem readU16_nlaUnit_tag (t : Nat) (v : Bytes) (r : Bytes)
    (h : t < 65536) : readU16 (nlaUnit t v ++ r) 2 = t := by
  have heq : nlaUnit t v ++ r
      = (leBytes 2 (4 + v.length)) ++ (leBytes 2 t ++ (v ++
          List.replicate (align4 (4 + v.length) - (4 + v.length)) 0 ++ r)) := by
    simp [nlaUnit]
  rw [readU16, heq, drop_append_of_le _ (by rw [length_leBytes])]
  rw [length_leBytes]
  norm_num
  rw [readLE_leBytes_append]
  exact Nat.mod_eq_of_lt (by norm_num; omega)

theorem nlaUnit_payload (t : Nat) (v : Bytes) (r : Bytes) :
    ((nlaUnit t v ++ r).drop 4).take v.length = v := by
  have heq : nlaUnit t v ++ r
      = (leBytes 2 (4 + v.length) ++ leBytes 2 t) ++ (v ++
          (List.replicate (align4 (4 + v.length) - (4 + v.length)) 0 ++ r)) := by
    simp [nlaUnit]
  have hlen : (leBytes 2 (4 + v.length) ++ leBytes 2 t).length = 4 := by
    simp [length_leBytes]
  rw [heq, drop_append_of_le _ (le_of_eq hlen), hlen]
  simp only [Nat.sub_self, List.drop_zero]
  exact List.take_left v _

theorem nlaUnit_advance (t : Nat) (v : Bytes) (r : Bytes) :
    (nlaUnit t v ++ r).drop (align4 (4 + v.length)) = r := by
  rw [drop_append_of_le _ (le_of_eq (nlaUnit_length t v)), nlaUnit_length]
  simp

/-! ## Lemmas about the primitive value parsers -/

theorem parse_string_append_zero (s : Bytes) : parse_string (s ++ [0]) = .ok s := by
  unfold parse_string
  rw [if_neg (by simp), List.getLast?_concat, if_pos rfl, List.dropLast_concat]

theorem parse_u8_byte (b : Nat) (h : b < 256) : parse_u8 [b] = .ok b := by
  simp [parse_u8, Nat.mod_eq_of_lt h]

/-- Well-formedness of the legacy statistics record: every field fits its
fixed-width wire slot. -/
def TcStats.WF (s : TcStats) : Prop :=
  s.bytes < 2 ^ 64 ∧ s.packets < 2 ^ 32 ∧ s.drops < 2 ^ 32 ∧ s.overlimits < 2 ^ 32 ∧
    s.bps < 2 ^ 32 ∧ s.pps < 2 ^ 32 ∧ s.qlen < 2 ^ 32 ∧ s.backlog < 2 ^ 32

theorem TcStats.emitValue_length (s : TcStats) : s.emitValue.length = 40 := by
  simp [TcStats.emitValue, length_leBytes]

theorem TcStats.parse_emitValue (s : TcStats) (h : s.WF) :
    TcStats.parse s.emitValue = .ok s := by
  obtain ⟨h1, h2, h3, h4, h5, h6, h7, h8⟩ := h
  have key : ∀ (w x : Nat) (r : Bytes), x < 256 ^ w → readLE w (leBytes w x ++ r) = x := by
    intro w x r hx
    rw [readLE_leBytes_append, Nat.mod_eq_of_lt hx]
  have e64 : (2 : Nat) ^ 64 = 256 ^ 8 := by norm_num
  have e32 : (2 : Nat) ^ 32 = 256 ^ 4 := by norm_num
  have step4 : ∀ (x : Nat) (b : Bytes), (leBytes 4 x ++ b).drop 4 = b := by
    intro x b
    rw [drop_append_of_le _ (le_of_eq (length_leBytes 4 x)), length_leBytes]
    simp
  have step8 : ∀ (x : Nat) (b : Bytes), (leBytes 8 x ++ b).drop 8 = b := by
    intro x b
    rw [drop_append_of_le _ (le_of_eq (length_leBytes 8 x)), length_leBytes]
    simp
  have hv : s.emitValue
      = leBytes 8 s.bytes ++ (leBytes 4 s.packets ++ (leBytes 4 s.drops ++
        (leBytes 4 s.overlimits ++ (leBytes 4 s.bps ++ (leBytes 4 s.pps ++
        (leBytes 4 s.qlen ++ (leBytes 4 s.backlog ++ ([0, 0, 0, 0] : Bytes)))))))) := by
    simp [TcStats.emitValue, List.append_assoc]
  have d8 := hv ▸ step8 s.bytes _
  have d12 : s.emitValue.drop 12 = leBytes 4 s.drops ++
      (leBytes 4 s.overlimits ++ (leBytes 4 s.bps ++ (leBytes 4 s.pps ++
      (leBytes 4 s.qlen ++ (leBytes 4 s.backlog ++ ([0, 0, 0, 0] : Bytes)))))) := by
    rw [show (12 : Nat) = 8 + 4 from rfl, ← List.drop_drop, d8, step4]
  have d16 : s.emitValue.drop 16 = leBytes 4 s.overlimits ++
      (leBytes 4 s.bps ++ (leBytes 4 s.pps ++
      (leBytes 4 s.qlen ++ (leBytes 4 s.backlog ++ ([0, 0, 0, 0] : Bytes))))) := by
    rw [show (16 : Nat) = 12 + 4 from rfl, ← List.drop_drop, d12, step4]
  have d20 : s.emitValue.drop 20 = leBytes 4 s.bps ++ (leBytes 4 s.pps ++
      (leBytes 4 s.qlen ++ (leBytes 4 s.backlog ++ ([0, 0, 0, 0] : Bytes)))) := by
    rw [show (20 : Nat) = 16 + 4 from rfl, ← List.drop_drop, d16, step4]
  have d24 : s.emitValue.drop 24 = leBytes 4 s.pps ++
      (leBytes 4 s.qlen ++ (leBytes 4 s.backlog ++ ([0, 0, 0, 0] : Bytes))) := by
    rw [show (24 : Nat) = 20 + 4 from rfl, ← List.drop_drop, d20, step4]
  have d28 : s.emitValue.drop 28 = leBytes 4 s.qlen ++
      (leBytes 4 s.backlog ++ ([0, 0, 0, 0] : Bytes)) := by
    rw [show (28 : Nat) = 24 + 4 from rfl, ← List.drop_drop, d24, step4]
  have d32 : s.emitValue.drop 32 = leBytes 4 s.backlog ++ ([0, 0, 0, 0] : Bytes) := by
    rw [show (32 : Nat) = 28 + 4 from rfl, ← List.drop_drop, d28, step4]
  have hb : readU64 s.emitValue 0 = s.bytes := by
    rw [readU64, List.drop_zero, hv, key 8 _ _ (e64 ▸ h1)]
  have hpk : readU32 s.emitValue 8 = s.packets := by
    rw [readU32, d8, key 4 _ _ (e32 ▸ h2)]
  have hdr : readU32 s.emitValue 12 = s.drops := by
    rw [readU32, d12, key 4 _ _ (e32 ▸ h3)]
  have hov : readU32 s.emitValue 16 = s.overlimits := by
    rw [readU32, d16, key 4 _ _ (e32 ▸ h4)]
  have hbp : readU32 s.emitValue 20 = s.bps := by
    rw [readU32, d20, key 4 _ _ (e32 ▸ h5)]
  have hpp : readU32 s.emitValue 24 = s.pps := by
    rw [readU32, d24, key 4 _ _ (e32 ▸ h6)]
  have hql : readU32 s.emitValue 28 = s.qlen := by
    rw [readU32, d28, key 4 _ _ (e32 ▸ h7)]
  have hbk : readU32 s.emitValue 32 = s.backlog := by
    rw [readU32, d32, key 4 _ _ (e32 ▸ h8)]
  unfold TcStats.parse
  rw [if_neg (by rw [TcStats.emitValue_length]; omega), hb, hpk, hdr, hov, hbp, hpp, hql, hbk]

/-! ## The nested statistics stream -/

/-- Well-formedness of one nested `TCA_STATS2` entry: its value fits the
16-bit length field, and an opaque entry's tag is a masked tag outside the
recognized nested tag set.  Every entry produced by decoding satisfies
this. -/
def TcStats2.WF : TcStats2 → Prop
  | .statsBasic v => 4 + v.length ≤ 65535
  | .statsQueue v => 4 + v.length ≤ 65535
  | .other d => 4 + d.value.length ≤ 65535 ∧ d.kind < 16384 ∧ d.kind ≠ 1 ∧ d.kind ≠ 3

theorem stats2_parse_emit (e : TcStats2) (h : e.WF) :
    TcStats2.parse e.tag e.valueBytes = e := by
  cases e with
  | statsBasic v => simp [TcStats2.parse, TcStats2.tag, TcStats2.valueBytes]
  | statsQueue v => simp [TcStats2.parse, TcStats2.tag, TcStats2.valueBytes]
  | other d =>
    obtain ⟨-, hk, h1, h3⟩ := h
    have hm : d.kind % 16384 = d.kind := Nat.mod_eq_of_lt hk
    simp only [TcStats2.parse, TcStats2.tag, TcStats2.valueBytes, hm]
    rw [if_neg h1, if_neg h3]

theorem stats2_emit_length (e : TcStats2) :
    e.emit.length = align4 (4 + e.value_len) := by
  rw [TcStats2.emit, nlaUnit_length, TcStats2.value_len]

theorem parseStats2Stream_emit (es : List TcStats2) (h : ∀ e ∈ es, e.WF) :
    ∀ fuel, (es.map TcStats2.emit).flatten.length ≤ fuel →
      parseStats2Stream fuel (es.map TcStats2.emit).flatten = .ok es := by
  induction es with
  | nil =>
    intro fuel _
    cases fuel with
    | zero => rfl
    | succ f => simp [parseStats2Stream]
  | cons e es ih =>
    intro fuel hfuel
    have hewf := h e (List.mem_cons_self e es)
    have hvl : 4 + (TcStats2.valueBytes e).length ≤ 65535 := by
      cases e with
      | statsBasic v => exact hewf
      | statsQueue v => exact hewf
      | other d => exact hewf.1
    have htag : TcStats2.tag e < 65536 := by
      cases e with
      | statsBasic v => simp [TcStats2.tag]
      | statsQueue v => simp [TcStats2.tag]
      | other d =>
        have hk : d.kind < 16384 := hewf.2.1
        simp only [TcStats2.tag]
        omega
    have hge4 := nlaUnit_ge_four e.tag e.valueBytes
    have halign := align4_le (4 + e.valueBytes.length)
    have hee : TcStats2.emit e = nlaUnit e.tag e.valueBytes := rfl
    simp only [List.map_cons, List.flatten_cons, hee] at hfuel ⊢
    rw [List.length_append] at hfuel
    obtain ⟨f, rfl⟩ : ∃ f, fuel = f + 1 := ⟨fuel - 1, by omega⟩
    simp only [parseStats2Stream]
    rw [if_neg (by rw [List.length_append]; push_neg; omega)]
    rw [readU16_nlaUnit_len _ _ _ hvl, readU16_nlaUnit_tag _ _ _ htag]
    rw [if_neg (by
      rw [List.length_append, nlaUnit_length]
      push_neg
      constructor <;> omega)]
    rw [nlaUnit_advance]
    have hrec : parseStats2Stream f (List.flatten (List.map TcStats2.emit es)) = .ok es := by
      refine ih (fun x hx => h x (List.mem_cons_of_mem e hx)) f ?_
      rw [nlaUnit_length] at hfuel
      omega
    rw [hrec]
    have hts : 4 + e.valueBytes.length - 4 = e.valueBytes.length := by omega
    rw [hts, nlaUnit_payload, stats2_parse_emit e hewf]

theorem parseStats2Stream_wf :
    ∀ fuel (buf : Bytes) (es : List TcStats2),
      parseStats2Stream fuel buf = .ok es → buf.length ≤ 65531 →
      ∀ e ∈ es, e.WF := by
  intro fuel
  induction fuel with
  | zero =>
    intro buf es h _ e he
    simp only [parseStats2Stream] at h
    rw [Except.ok.injEq] at h
    subst h
    simp at he
  | succ f ih =>
    intro buf es h hlen e he
    simp only [parseStats2Stream] at h
    split at h
    · rw [Except.ok.injEq] at h
      subst h
      simp at he
    · split at h
      · simp at h
      · rename_i hshort hok
        push_neg at hok
        cases hrec : parseStats2Stream f (buf.drop (align4 (readU16 buf 0))) with
        | error e2 => rw [hrec] at h; simp at h
        | ok rest =>
          rw [hrec] at h
          rw [Except.ok.injEq] at h
          subst h
          have hplen : ((buf.drop 4).take (readU16 buf 0 - 4)).length ≤ 65531 := by
            have h1 := List.length_take (readU16 buf 0 - 4) (buf.drop 4)
            have h2 := List.length_drop 4 buf
            omega
          rcases List.mem_cons.mp he with rfl | hmem
          · have hmask : readU16 buf 2 % 16384 < 16384 := Nat.mod_lt _ (by norm_num)
            unfold TcStats2.parse
            split
            · simp only [TcStats2.WF]
              omega
            · split
              · simp only [TcStats2.WF]
                omega
              · rename_i hne1 hne3
                exact ⟨(by omega :
                  4 + ((buf.drop 4).take (readU16 buf 0 - 4)).length ≤ 65535),
                  hmask, hne1, hne3⟩
          · refine ih _ _ hrec ?_ e hmem
            have := List.length_drop (align4 (readU16 buf 0)) buf
            omega

/-! ## Well-formedness of decoded attributes

The predicates below capture exactly the shape invariants that decoding
guarantees; the round-trip argument extracts them from a successful parse
and consumes them when re-parsing the emitted bytes. -/

/-- Kind-string state after processing one attribute: a `Kind` attribute
replaces the carried string, every other attribute leaves it unchanged. -/
def updKind {α : Type} (k : Bytes) : TcNla α → Bytes
  | .kind s => s
  | _ => k

/-- Consistency of a decoded options attribute with the kind string carried
at its position: under `"ingress"` the payload is the ingress marker,
under any other kind it is the opaque arm. -/
def optStateOK (k : Bytes) : TcNla Qdisc → Prop
  | .options o => if k = ingressKind then o = Qdisc.ingress else ∃ p, o = Qdisc.other p
  | _ => True

/-- Per-attribute shape invariant guaranteed by decoding: statistics fields
fit their slots, nested entries are well formed, the hardware-offload flag
is one byte, and a catch-all tag is a masked tag outside the recognized
set. -/
def TcNla.WF : TcNla Qdisc → Prop
  | .stats s => s.WF
  | .stats2 es => ∀ e ∈ es, e.WF
  | .hwOffload b => b < 256
  | .other d => d.kind < 16384 ∧ d.kind ≠ 0 ∧ d.kind ≠ 1 ∧ d.kind ≠ 2 ∧ d.kind ≠ 3 ∧
      d.kind ≠ 4 ∧ d.kind ≠ 5 ∧ d.kind ≠ 6 ∧ d.kind ≠ 7 ∧ d.kind ≠ 8 ∧
      d.kind ≠ 11 ∧ d.kind ≠ 12
  | _ => True

/-- Well-formedness of an attribute sequence relative to the carried kind
string, threading `updKind` left to right. -/
def nlasWF : Bytes → List (TcNla Qdisc) → Prop
  | _, [] => True
  | k, n :: rest => n.WF ∧ optStateOK k n ∧ nlasWF (updKind k n) rest

/-- An attribute's re-encoded length fits the 16-bit TLV length field. -/
abbrev fitsU16 (n : TcNla Qdisc) : Prop := 4 + n.value_len Qdisc.value_len ≤ 65535

theorem TcNla.valueBytes_length (n : TcNla Qdisc) :
    (n.valueBytes Qdisc.valueBytes).length = n.value_len Qdisc.value_len := by
  cases n with
  | unspec v => rfl
  | kind s => simp [TcNla.valueBytes, TcNla.value_len]
  | options o => cases o <;> rfl
  | stats s =>
    simp [TcNla.valueBytes, TcNla.value_len, TcStats.emitValue_length]
  | xstats v => rfl
  | rate v => rfl
  | fcnt v => rfl
  | stats2 es =>
    simp only [TcNla.valueBytes, TcNla.value_len, List.length_flatten, List.map_map]
    exact congrArg List.sum (List.map_congr_left fun e _ => stats2_emit_length e)
  | stab v => rfl
  | chain v => rfl
  | hwOffload b => rfl
  | other d => rfl

/-- Re-parsing one emitted attribute's dispatch step returns the attribute
and the correctly updated kind string. -/
theorem parseTcNla_emit (k : Bytes) (n : TcNla Qdisc) (hwf : n.WF)
    (hopt : optStateOK k n) :
    parseTcNla Qdisc.parse_with_param k n.tag (n.valueBytes Qdisc.valueBytes) =
      .ok (updKind k n, n) := by
  cases n with
  | unspec v => rfl
  | kind s =>
    simp [parseTcNla, TcNla.tag, TcNla.valueBytes, parse_string_append_zero, updKind]
  | options o =>
    by_cases hk : k = ingressKind
    · have ho : o = Qdisc.ingress := by simpa [optStateOK, hk] using hopt
      subst ho
      simp [parseTcNla, TcNla.tag, TcNla.valueBytes, Qdisc.parse_with_param, hk,
        Qdisc.valueBytes, updKind]
    · obtain ⟨p, rfl⟩ : ∃ p, o = Qdisc.other p := by simpa [optStateOK, hk] using hopt
      simp [parseTcNla, TcNla.tag, TcNla.valueBytes, Qdisc.parse_with_param, hk,
        Qdisc.valueBytes, updKind]
  | stats s =>
    have hs : TcStats.parse s.emitValue = .ok s := TcStats.parse_emitValue s hwf
    simp [parseTcNla, TcNla.tag, TcNla.valueBytes, hs, updKind]
  | xstats v => rfl
  | rate v => rfl
  | fcnt v => rfl
  | stats2 es =>
    have hsum : (List.map (List.length ∘ TcStats2.emit) es).sum
        = (es.map TcStats2.emit).flatten.length := by
      simp [List.length_flatten, List.map_map]
    have hs := parseStats2Stream_emit es hwf
      ((List.map (List.length ∘ TcStats2.emit) es).sum) (le_of_eq hsum.symm)
    simp [parseTcNla, TcNla.tag, TcNla.valueBytes, hs, updKind]
  | stab v => rfl
  | chain v => rfl
  | hwOffload b =>
    have hb : b % 256 = b := Nat.mod_eq_of_lt hwf
    simp [parseTcNla, TcNla.tag, TcNla.valueBytes, parse_u8, hb, updKind]
  | other d =>
    obtain ⟨hk, h0, h1, h2, h3, h4, h5, h6, h7, h8, h11, h12⟩ := hwf
    have hm : d.kind % 16384 = d.kind := Nat.mod_eq_of_lt hk
    show parseTcNla Qdisc.parse_with_param k d.kind d.value = .ok (k, .other d)
    unfold parseTcNla
    rw [hm, if_neg h0, if_neg h1, if_neg h2, if_neg h3, if_neg h4, if_neg h5,
      if_neg h6, if_neg h7, if_neg h8, if_neg h11, if_neg h12]

/-! ## Extraction: every successful parse yields well-formed values -/

theorem parse_string_ok (p : Bytes) : ∃ s, parse_string p = .ok s := by
  unfold parse_string
  split
  · exact ⟨_, rfl⟩
  · split <;> exact ⟨_, rfl⟩

theorem stats_parse_wf {payload : Bytes} {s : TcStats}
    (h : TcStats.parse payload = .ok s) : s.WF := by
  unfold TcStats.parse at h
  split at h
  · exact absurd h (by simp)
  · rw [Except.ok.injEq] at h
    subst h
    have h64 : (256 : Nat) ^ 8 = 2 ^ 64 := by norm_num
    have h32 : (256 : Nat) ^ 4 = 2 ^ 32 := by norm_num
    exact ⟨h64 ▸ readLE_lt 8 _, h32 ▸ readLE_lt 4 _, h32 ▸ readLE_lt 4 _,
      h32 ▸ readLE_lt 4 _, h32 ▸ readLE_lt 4 _, h32 ▸ readLE_lt 4 _,
      h32 ▸ readLE_lt 4 _, h32 ▸ readLE_lt 4 _⟩

theorem TcStats.parse_error {payload : Bytes} {e : CodecError}
    (h : TcStats.parse payload = .error e) : e = .lengthError := by
  unfold TcStats.parse at h
  split at h
  · exact (Except.error.injEq _ _ ▸ h).symm
  · exact absurd h (by simp)

theorem parse_u8_wf {p : Bytes} {b : Nat} (h : parse_u8 p = .ok b) : b < 256 := by
  unfold parse_u8 at h
  split at h
  · rw [Except.ok.injEq] at h
    subst h
    exact Nat.mod_lt _ (by norm_num)
  · exact absurd h (by simp)

theorem parse_u8_error {p : Bytes} {e : CodecError} (h : parse_u8 p = .error e) :
    e = .malformedField := by
  unfold parse_u8 at h
  split at h
  · exact absurd h (by simp)
  · exact (Except.error.injEq _ _ ▸ h).symm

theorem parseStats2Stream_error :
    ∀ fuel (buf : Bytes) (e : CodecError),
      parseStats2Stream fuel buf = .error e → e = .lengthError := by
  intro fuel
  induction fuel with
  | zero =>
    intro buf e h
    exact absurd h (by simp [parseStats2Stream])
  | succ f ih =>
    intro buf e h
    simp only [parseStats2Stream] at h
    split at h
    · exact absurd h (by simp)
    · split at h
      · exact (Except.error.injEq _ _ ▸ h).symm
      · cases hrec : parseStats2Stream f (buf.drop (align4 (readU16 buf 0))) with
        | error e2 =>
          rw [hrec] at h
          rw [Except.error.injEq] at h
          subst h
          exact ih _ _ hrec
        | ok rest => rw [hrec] at h; exact absurd h (by simp)

/-- Extraction for one dispatch step: a successful step yields a
well-formed attribute consistent with the carried kind string, and the
returned kind string is `updKind`. -/
theorem parseTcNla_ok_wf {k : Bytes} {tag : Nat} {payload : Bytes}
    {k2 : Bytes} {nla : TcNla Qdisc}
    (hp : payload.length ≤ 65531)
    (h : parseTcNla Qdisc.parse_with_param k tag payload = .ok (k2, nla)) :
    nla.WF ∧ optStateOK k nla ∧ k2 = updKind k nla := by
  unfold parseTcNla at h
  by_cases h0 : tag % 16384 = 0
  · rw [if_pos h0] at h
    simp only [Except.ok.injEq, Prod.mk.injEq] at h
    obtain ⟨rfl, rfl⟩ := h
    exact ⟨trivial, trivial, rfl⟩
  rw [if_neg h0] at h
  by_cases h1 : tag % 16384 = 1
  · rw [if_pos h1] at h
    obtain ⟨s, hs⟩ := parse_string_ok payload
    rw [hs] at h
    simp only [Except.ok.injEq, Prod.mk.injEq] at h
    obtain ⟨rfl, rfl⟩ := h
    exact ⟨trivial, trivial, rfl⟩
  rw [if_neg h1] at h
  by_cases h2 : tag % 16384 = 2
  · rw [if_pos h2] at h
    simp only [Qdisc.parse_with_param, Except.ok.injEq, Prod.mk.injEq] at h
    obtain ⟨rfl, rfl⟩ := h
    refine ⟨trivial, ?_, rfl⟩
    by_cases hk : k = ingressKind
    · simp [optStateOK, hk]
    · simp [optStateOK, hk]
  rw [if_neg h2] at h
  by_cases h3 : tag % 16384 = 3
  · rw [if_pos h3] at h
    cases hps : TcStats.parse payload with
    | error e2 => rw [hps] at h; exact absurd h (by simp)
    | ok s =>
      rw [hps] at h
      simp only [Except.ok.injEq, Prod.mk.injEq] at h
      obtain ⟨rfl, rfl⟩ := h
      exact ⟨stats_parse_wf hps, trivial, rfl⟩
  rw [if_neg h3] at h
  by_cases h4 : tag % 16384 = 4
  · rw [if_pos h4] at h
    simp only [Except.ok.injEq, Prod.mk.injEq] at h
    obtain ⟨rfl, rfl⟩ := h
    exact ⟨trivial, trivial, rfl⟩
  rw [if_neg h4] at h
  by_cases h5 : tag % 16384 = 5
  · rw [if_pos h5] at h
    simp only [Except.ok.injEq, Prod.mk.injEq] at h
    obtain ⟨rfl, rfl⟩ := h
    exact ⟨trivial, trivial, rfl⟩
  rw [if_neg h5] at h
  by_cases h6 : tag % 16384 = 6
  · rw [if_pos h6] at h
    simp only [Except.ok.injEq, Prod.mk.injEq] at h
    obtain ⟨rfl, rfl⟩ := h
    exact ⟨trivial, trivial, rfl⟩
  rw [if_neg h6] at h
  by_cases h7 : tag % 16384 = 7
  · rw [if_pos h7] at h
    cases hps : parseStats2Stream payload.length payload with
    | error e2 => rw [hps] at h; exact absurd h (by simp)
    | ok es =>
      rw [hps] at h
      simp only [Except.ok.injEq, Prod.mk.injEq] at h
      obtain ⟨rfl, rfl⟩ := h
      exact ⟨parseStats2Stream_wf _ _ _ hps hp, trivial, rfl⟩
  rw [if_neg h7] at h
  by_cases h8 : tag % 16384 = 8
  · rw [if_pos h8] at h
    simp only [Except.ok.injEq, Prod.mk.injEq] at h
    obtain ⟨rfl, rfl⟩ := h
    exact ⟨trivial, trivial, rfl⟩
  rw [if_neg h8] at h
  by_cases h11 : tag % 16384 = 11
  · rw [if_pos h11] at h
    simp only [Except.ok.injEq, Prod.mk.injEq] at h
    obtain ⟨rfl, rfl⟩ := h
    exact ⟨trivial, trivial, rfl⟩
  rw [if_neg h11] at h
  by_cases h12 : tag % 16384 = 12
  · rw [if_pos h12] at h
    cases hps : parse_u8 payload with
    | error e2 => rw [hps] at h; exact absurd h (by simp)
    | ok b =>
      rw [hps] at h
      simp only [Except.ok.injEq, Prod.mk.injEq] at h
      obtain ⟨rfl, rfl⟩ := h
      exact ⟨parse_u8_wf hps, trivial, rfl⟩
  rw [if_neg h12] at h
  simp only [Except.ok.injEq, Prod.mk.injEq] at h
  obtain ⟨rfl, rfl⟩ := h
  exact ⟨⟨Nat.mod_lt _ (by norm_num), h0, h1, h2, h3, h4, h5, h6, h7, h8, h11, h12⟩,
    trivial, rfl⟩

/-- Error classification for one dispatch step: the step never raises the
builder-only unsupported-construction condition. -/
theorem parseTcNla_error {k : Bytes} {tag : Nat} {payload : Bytes} {e : CodecError}
    (h : parseTcNla Qdisc.parse_with_param k tag payload = .error e) :
    e = .lengthError ∨ e = .malformedField := by
  unfold parseTcNla at h
  by_cases h0 : tag % 16384 = 0
  · rw [if_pos h0] at h; exact absurd h (by simp)
  rw [if_neg h0] at h
  by_cases h1 : tag % 16384 = 1
  · rw [if_pos h1] at h
    obtain ⟨s, hs⟩ := parse_string_ok payload
    rw [hs] at h
    exact absurd h (by simp)
  rw [if_neg h1] at h
  by_cases h2 : tag % 16384 = 2
  · rw [if_pos h2] at h
    simp only [Qdisc.parse_with_param] at h
    exact absurd h (by simp)
  rw [if_neg h2] at h
  by_cases h3 : tag % 16384 = 3
  · rw [if_pos h3] at h
    cases hps : TcStats.parse payload with
    | error e2 =>
      rw [hps] at h
      rw [Except.error.injEq] at h
      subst h
      exact Or.inl (TcStats.parse_error hps)
    | ok s => rw [hps] at h; exact absurd h (by simp)
  rw [if_neg h3] at h
  by_cases h4 : tag % 16384 = 4
  · rw [if_pos h4] at h; exact absurd h (by simp)
  rw [if_neg h4] at h
  by_cases h5 : tag % 16384 = 5
  · rw [if_pos h5] at h; exact absurd h (by simp)
  rw [if_neg h5] at h
  by_cases h6 : tag % 16384 = 6
  · rw [if_pos h6] at h; exact absurd h (by simp)
  rw [if_neg h6] at h
  by_cases h7 : tag % 16384 = 7
  · rw [if_pos h7] at h
    cases hps : parseStats2Stream payload.length payload with
    | error e2 =>
      rw [hps] at h
      rw [Except.error.injEq] at h
      subst h
      exact Or.inl (parseStats2Stream_error _ _ _ hps)
    | ok es => rw [hps] at h; exact absurd h (by simp)
  rw [if_neg h7] at h
  by_cases h8 : tag % 16384 = 8
  · rw [if_pos h8] at h; exact absurd h (by simp)
  rw [if_neg h8] at h
  by_cases h11 : tag % 16384 = 11
  · rw [if_pos h11] at h; exact absurd h (by simp)
  rw [if_neg h11] at h
  by_cases h12 : tag % 16384 = 12
  · rw [if_pos h12] at h
    cases hps : parse_u8 payload with
    | error e2 =>
      rw [hps] at h
      rw [Except.error.injEq] at h
      subst h
      exact Or.inr (parse_u8_error hps)
    | ok b => rw [hps] at h; exact absurd h (by simp)
  rw [if_neg h12] at h
  exact absurd h (by simp)

/-! ## The attribute-stream walk -/

theorem TcNla.tag_lt (n : TcNla Qdisc) (hwf : n.WF) : n.tag < 65536 := by
  cases n with
  | other d => exact lt_trans hwf.1 (by norm_num)
  | unspec v => simp [TcNla.tag]
  | kind s => simp [TcNla.tag]
  | options o => simp [TcNla.tag]
  | stats s => simp [TcNla.tag]
  | xstats v => simp [TcNla.tag]
  | rate v => simp [TcNla.tag]
  | fcnt v => simp [TcNla.tag]
  | stats2 es => simp [TcNla.tag]
  | stab v => simp [TcNla.tag]
  | chain v => simp [TcNla.tag]
  | hwOffload b => simp [TcNla.tag]

/-- One step of re-parsing an emitted attribute at the head of the stream:
the attribute comes back, the kind string advances by `updKind`, and the
walk continues on the remaining bytes with one unit of fuel consumed. -/
theorem parseNlas_cons_emit (k : Bytes) (n : TcNla Qdisc) (rest : Bytes) (fuel : Nat)
    (hwf : n.WF) (hopt : optStateOK k n) (hfit : fitsU16 n)
    (hfuel : (TcNla.emit Qdisc.valueBytes n ++ rest).length ≤ fuel) :
    parseNlas Qdisc.parse_with_param fuel k (TcNla.emit Qdisc.valueBytes n ++ rest) =
      match parseNlas Qdisc.parse_with_param (fuel - 1) (updKind k n) rest with
      | .error e => .error e
      | .ok ns => .ok (n :: ns) := by
  have hvl : 4 + (n.valueBytes Qdisc.valueBytes).length ≤ 65535 := by
    rw [TcNla.valueBytes_length]; exact hfit
  have htag := TcNla.tag_lt n hwf
  have hee : TcNla.emit Qdisc.valueBytes n
      = nlaUnit n.tag (n.valueBytes Qdisc.valueBytes) := rfl
  have hge4 := nlaUnit_ge_four n.tag (n.valueBytes Qdisc.valueBytes)
  have halign := align4_le (4 + (n.valueBytes Qdisc.valueBytes).length)
  rw [hee] at hfuel ⊢
  rw [List.length_append] at hfuel
  obtain ⟨f, rfl⟩ : ∃ f, fuel = f + 1 := ⟨fuel - 1, by omega⟩
  simp only [parseNlas]
  rw [if_neg (by rw [List.length_append]; push_neg; omega)]
  rw [readU16_nlaUnit_len _ _ _ hvl, readU16_nlaUnit_tag _ _ _ htag]
  rw [if_neg (by
    rw [List.length_append, nlaUnit_length]
    push_neg
    constructor <;> omega)]
  have hts : 4 + (n.valueBytes Qdisc.valueBytes).length - 4
      = (n.valueBytes Qdisc.valueBytes).length := by omega
  rw [hts, nlaUnit_payload, nlaUnit_advance, parseTcNla_emit k n hwf hopt]
  rw [Nat.add_sub_cancel]
  dsimp only
  cases hr : parseNlas Qdisc.parse_with_param f (updKind k n) rest with
  | error e => rfl
  | ok ns => rfl

/-- Re-parsing an emitted well-formed attribute sequence recovers it. -/
theorem parseNlas_emit (ns : List (TcNla Qdisc)) :
    ∀ (k : Bytes) (fuel : Nat), nlasWF k ns → (∀ n ∈ ns, fitsU16 n) →
      (ns.map (TcNla.emit Qdisc.valueBytes)).flatten.length ≤ fuel →
      parseNlas Qdisc.parse_with_param fuel k
        (ns.map (TcNla.emit Qdisc.valueBytes)).flatten = .ok ns := by
  induction ns with
  | nil =>
    intro k fuel _ _ _
    cases fuel with
    | zero => rfl
    | succ f => simp [parseNlas]
  | cons n ns ih =>
    intro k fuel hwf hfit hfuel
    obtain ⟨hnwf, hopt, hrest⟩ := hwf
    simp only [List.map_cons, List.flatten_cons] at hfuel ⊢
    rw [parseNlas_cons_emit k n _ fuel hnwf hopt (hfit n (List.mem_cons_self n ns)) hfuel]
    rw [ih (updKind k n) (fuel - 1) hrest (fun x hx => hfit x (List.mem_cons_of_mem n hx))
      (by
        rw [List.length_append] at hfuel
        have hge4 := nlaUnit_ge_four n.tag (n.valueBytes Qdisc.valueBytes)
        have : (TcNla.emit Qdisc.valueBytes n).length
            = (nlaUnit n.tag (n.valueBytes Qdisc.valueBytes)).length := rfl
        omega)]

/-- Decoding extracts only well-formed attribute sequences. -/
theorem parseNlas_wf :
    ∀ (fuel : Nat) (k buf : Bytes) (ns : List (TcNla Qdisc)),
      parseNlas Qdisc.parse_with_param fuel k buf = .ok ns → nlasWF k ns := by
  intro fuel
  induction fuel with
  | zero =>
    intro k buf ns h
    simp only [parseNlas] at h
    rw [Except.ok.injEq] at h
    subst h
    trivial
  | succ f ih =>
    intro k buf ns h
    simp only [parseNlas] at h
    split at h
    · rw [Except.ok.injEq] at h
      subst h
      trivial
    · split at h
      · simp at h
      · split at h
        · simp at h
        · rename_i k2 nla hstep
          split at h
          · simp at h
          · rename_i rest hrec
            rw [Except.ok.injEq] at h
            subst h
            have hp : ((buf.drop 4).take (readU16 buf 0 - 4)).length ≤ 65531 := by
              have h1 := List.length_take (readU16 buf 0 - 4) (buf.drop 4)
              have h2 : readU16 buf 0 < 65536 :=
                lt_of_lt_of_le (readLE_lt 2 _) (by norm_num)
              omega
            obtain ⟨hnwf, hopt, hupd⟩ := parseTcNla_ok_wf hp hstep
            exact ⟨hnwf, hopt, hupd ▸ ih k2 _ rest hrec⟩

/-- The fuel driving the walk is irrelevant once it covers the buffer. -/
theorem parseNlas_fuelIrr {α : Type} (pwp : Bytes → Bytes → Except CodecError α) :
    ∀ (f g : Nat) (k buf : Bytes), buf.length ≤ f → buf.length ≤ g →
      parseNlas pwp f k buf = parseNlas pwp g k buf := by
  intro f
  induction f with
  | zero =>
    intro g k buf hf hg
    have hnil : buf = [] := List.eq_nil_of_length_eq_zero (by omega)
    subst hnil
    cases g with
    | zero => rfl
    | succ g2 => simp [parseNlas]
  | succ f2 ih =>
    intro g k buf hf hg
    cases g with
    | zero =>
      have hnil : buf = [] := List.eq_nil_of_length_eq_zero (by omega)
      subst hnil
      simp [parseNlas]
    | succ g2 =>
      simp only [parseNlas]
      by_cases hlt : buf.length < 4
      · rw [if_pos hlt, if_pos hlt]
      · rw [if_neg hlt, if_neg hlt]
        by_cases hviol : readU16 buf 0 < 4 ∨ buf.length < readU16 buf 0
        · rw [if_pos hviol, if_pos hviol]
        · rw [if_neg hviol, if_neg hviol]
          cases hstep : parseTcNla pwp k (readU16 buf 2)
              ((buf.drop 4).take (readU16 buf 0 - 4)) with
          | error e => rfl
          | ok kn =>
            obtain ⟨k2, nla⟩ := kn
            have hdrop : (buf.drop (align4 (readU16 buf 0))).length ≤ f2 ∧
                (buf.drop (align4 (readU16 buf 0))).length ≤ g2 := by
              push_neg at hviol
              have h1 := List.length_drop (align4 (readU16 buf 0)) buf
              have h2 := align4_le (readU16 buf 0)
              constructor <;> omega
            dsimp only
            rw [ih g2 k2 _ hdrop.1 hdrop.2]

/-- Stream decoding never raises the builder-only
unsupported-construction condition. -/
theorem parseNlas_error_kind :
    ∀ (fuel : Nat) (k buf : Bytes) (e : CodecError),
      parseNlas Qdisc.parse_with_param fuel k buf = .error e →
      e = .lengthError ∨ e = .malformedField := by
  intro fuel
  induction fuel with
  | zero =>
    intro k buf e h
    simp [parseNlas] at h
  | succ f ih =>
    intro k buf e h
    simp only [parseNlas] at h
    split at h
    · simp at h
    · split at h
      · rw [Except.error.injEq] at h
        exact Or.inl h.symm
      · split at h
        · rename_i e2 hstep
          rw [Except.error.injEq] at h
          subst h
          exact parseTcNla_error hstep
        · rename_i k2 nla hstep
          split at h
          · rename_i e2 hrec
            rw [Except.error.injEq] at h
            subst h
            exact ih k2 _ _ hrec
          · simp at h

/-- A truncated raw walk forces the parse of the stream to fail. -/
theorem rawTruncated_error :
    ∀ (fuel : Nat) (k buf : Bytes), rawTruncated fuel buf = true →
      ∃ e, parseNlas Qdisc.parse_with_param fuel k buf = .error e := by
  intro fuel
  induction fuel with
  | zero =>
    intro k buf h
    simp [rawTruncated] at h
  | succ f ih =>
    intro k buf h
    simp only [rawTruncated] at h
    split at h
    · simp at h
    · split at h
      · rename_i hlt hviol
        refine ⟨.lengthError, ?_⟩
        simp only [parseNlas]
        rw [if_neg hlt, if_pos hviol]
      · rename_i hlt hviol
        cases hstep : parseTcNla Qdisc.parse_with_param k (readU16 buf 2)
            ((buf.drop 4).take (readU16 buf 0 - 4)) with
        | error e2 =>
          refine ⟨e2, ?_⟩
          simp only [parseNlas]
          rw [if_neg hlt, if_neg hviol, hstep]
        | ok kn =>
          obtain ⟨k2, nla⟩ := kn
          obtain ⟨e, hrec⟩ := ih k2 _ h
          refine ⟨e, ?_⟩
          simp only [parseNlas]
          rw [if_neg hlt, if_neg hviol, hstep]
          dsimp only
          rw [hrec]

/-- When the parser actually reaches the truncated attribute (everything
before it decodes), the stream parse fails with a length error. -/
theorem reachesTrunc_lengthError :
    ∀ (fuel : Nat) (k buf : Bytes),
      reachesTrunc Qdisc.parse_with_param fuel k buf = true →
      parseNlas Qdisc.parse_with_param fuel k buf = .error .lengthError := by
  intro fuel
  induction fuel with
  | zero =>
    intro k buf h
    simp [reachesTrunc] at h
  | succ f ih =>
    intro k buf h
    simp only [reachesTrunc] at h
    split at h
    · simp at h
    · split at h
      · rename_i hlt hviol
        simp only [parseNlas]
        rw [if_neg hlt, if_pos hviol]
      · rename_i hlt hviol
        cases hstep : parseTcNla Qdisc.parse_with_param k (readU16 buf 2)
            ((buf.drop 4).take (readU16 buf 0 - 4)) with
        | error e2 => rw [hstep] at h; simp at h
        | ok kn =>
          obtain ⟨k2, nla⟩ := kn
          rw [hstep] at h
          dsimp only at h
          simp only [parseNlas]
          rw [if_neg hlt, if_neg hviol, hstep]
          dsimp only
          rw [ih k2 _ h]

/-! ## Header lemmas -/

/-- Well-formedness of a header: every field fits its wire slot; the index
is a genuine `i32`. -/
def TcHeader.WF (h : TcHeader) : Prop :=
  h.family < 256 ∧ -(2 ^ 31) ≤ h.index ∧ h.index < 2 ^ 31 ∧
    h.handle < 2 ^ 32 ∧ h.parent < 2 ^ 32 ∧ h.info < 2 ^ 32

theorem i32ToU32_lt (i : Int) : i32ToU32 i < 2 ^ 32 := by
  unfold i32ToU32
  omega

theorem u32ToI32_i32ToU32 (i : Int) (h1 : -(2 ^ 31) ≤ i) (h2 : i < 2 ^ 31) :
    u32ToI32 (i32ToU32 i) = i := by
  unfold u32ToI32 i32ToU32
  split <;> omega

theorem u32ToI32_range (u : Nat) (h : u < 2 ^ 32) :
    -(2 ^ 31) ≤ u32ToI32 u ∧ u32ToI32 u < 2 ^ 31 := by
  unfold u32ToI32
  split <;> omega

theorem header_emit_length (h : TcHeader) : h.emit.length = 20 := by
  simp [TcHeader.emit, length_leBytes]

theorem header_parse_wf (buf : Bytes) : (TcHeader.parse buf).WF := by
  have h8 : readU8 buf 0 < 256 := lt_of_lt_of_le (readLE_lt 1 _) (by norm_num)
  have h32 : ∀ off, readU32 buf off < 2 ^ 32 := fun off =>
    lt_of_lt_of_le (readLE_lt 4 _) (by norm_num)
  obtain ⟨hr1, hr2⟩ := u32ToI32_range (readU32 buf 4) (h32 4)
  exact ⟨h8, hr1, hr2, h32 8, h32 12, h32 16⟩

theorem header_parse_emit (h : TcHeader) (hwf : h.WF) (r : Bytes) :
    TcHeader.parse (h.emit ++ r) = h := by
  obtain ⟨hf, hi1, hi2, hh, hp, hinfo⟩ := hwf
  have key : ∀ (w x : Nat) (b : Bytes), x < 256 ^ w → readLE w (leBytes w x ++ b) = x := by
    intro w x b hx
    rw [readLE_leBytes_append, Nat.mod_eq_of_lt hx]
  have e32 : (2 : Nat) ^ 32 = 256 ^ 4 := by norm_num
  have step4 : ∀ (x : Nat) (b : Bytes), (leBytes 4 x ++ b).drop 4 = b := by
    intro x b
    rw [drop_append_of_le _ (le_of_eq (length_leBytes 4 x)), length_leBytes]
    simp
  have hd4 : (h.emit ++ r).drop 4
      = leBytes 4 (i32ToU32 h.index) ++ (leBytes 4 h.handle ++
        (leBytes 4 h.parent ++ (leBytes 4 h.info ++ r))) := by
    simp [TcHeader.emit, List.append_assoc]
  have hd8 : (h.emit ++ r).drop 8 = leBytes 4 h.handle ++
      (leBytes 4 h.parent ++ (leBytes 4 h.info ++ r)) := by
    rw [show (8 : Nat) = 4 + 4 from rfl, ← List.drop_drop, hd4, step4]
  have hd12 : (h.emit ++ r).drop 12 = leBytes 4 h.parent ++
      (leBytes 4 h.info ++ r) := by
    rw [show (12 : Nat) = 8 + 4 from rfl, ← List.drop_drop, hd8, step4]
  have hd16 : (h.emit ++ r).drop 16 = leBytes 4 h.info ++ r := by
    rw [show (16 : Nat) = 12 + 4 from rfl, ← List.drop_drop, hd12, step4]
  have hfam : readU8 (h.emit ++ r) 0 = h.family := by
    show readLE 1 (((h.family % 256 :: _) ++ r).drop 0) = h.family
    rw [List.drop_zero]
    show h.family % 256 % 256 + 256 * readLE 0 _ = h.family
    rw [readLE, Nat.mod_mod_of_dvd _ dvd_rfl, Nat.mod_eq_of_lt hf]
    omega
  have hidx : readU32 (h.emit ++ r) 4 = i32ToU32 h.index := by
    rw [readU32, hd4, key 4 _ _ (e32 ▸ i32ToU32_lt h.index)]
  unfold TcHeader.parse
  rw [hfam, hidx, u32ToI32_i32ToU32 h.index hi1 hi2]
  rw [readU32, hd8, key 4 _ _ (e32 ▸ hh)]
  rw [readU32, hd12, key 4 _ _ (e32 ▸ hp)]
  rw [readU32, hd16, key 4 _ _ (e32 ▸ hinfo)]

/-! ## Message-level composition -/

theorem nla_emit_length (n : TcNla Qdisc) :
    (TcNla.emit Qdisc.valueBytes n).length = n.buffer_len Qdisc.value_len := by
  rw [TcNla.emit, nlaUnit_length, TcNla.valueBytes_length, TcNla.buffer_len]

theorem message_emit_length (m : TcMessage Qdisc) :
    (TcMessage.emit Qdisc.valueBytes m).length = m.buffer_len Qdisc.value_len := by
  rw [TcMessage.emit, TcMessage.buffer_len, List.length_append, header_emit_length,
    List.length_flatten, List.map_map]
  congr 1
  exact congrArg List.sum (List.map_congr_left fun n _ => nla_emit_length n)

/-- Extraction at message level: a successful decode determines the header
from the buffer and yields a well-formed attribute sequence. -/
theorem TcMessage.parse_ok_wf {buf : Bytes} {m : TcMessage Qdisc}
    (h : TcMessage.parse Qdisc.parse_with_param buf = .ok m) :
    m.header.WF ∧ nlasWF [] m.nlas := by
  unfold TcMessage.parse at h
  split at h
  · simp at h
  · split at h
    · simp at h
    · rename_i ns hns
      rw [Except.ok.injEq] at h
      subst h
      exact ⟨header_parse_wf buf, parseNlas_wf _ _ _ _ hns⟩

/-- Re-parsing an emitted well-formed message recovers it. -/
theorem message_parse_emit (m : TcMessage Qdisc) (hh : m.header.WF)
    (hw : nlasWF [] m.nlas) (hfit : ∀ n ∈ m.nlas, fitsU16 n) :
    TcMessage.parse Qdisc.parse_with_param (TcMessage.emit Qdisc.valueBytes m) = .ok m := by
  have hsplit : TcMessage.emit Qdisc.valueBytes m
      = m.header.emit ++ (m.nlas.map (TcNla.emit Qdisc.valueBytes)).flatten := rfl
  have hlen : (TcMessage.emit Qdisc.valueBytes m).length
      = 20 + (m.nlas.map (TcNla.emit Qdisc.valueBytes)).flatten.length := by
    rw [hsplit, List.length_append, header_emit_length]
  have hdrop : (TcMessage.emit Qdisc.valueBytes m).drop 20
      = (m.nlas.map (TcNla.emit Qdisc.valueBytes)).flatten := by
    rw [hsplit, drop_append_of_le _ (le_of_eq (header_emit_length m.header)),
      header_emit_length]
    simp
  unfold TcMessage.parse
  rw [if_neg (by omega)]
  rw [hdrop, parseNlas_emit m.nlas [] _ hw hfit (by omega)]
  rw [hsplit, header_parse_emit m.header hh]

/-! ## Pointwise walk lemmas, for stepping through concrete buffers -/

theorem parseNlas_nil (fuel : Nat) (k buf : Bytes) (h : buf.length < 4) :
    parseNlas Qdisc.parse_with_param fuel k buf = .ok [] := by
  cases fuel with
  | zero => rfl
  | succ f => simp [parseNlas, if_pos h]

theorem parseNlas_violation (fuel : Nat) (k buf : Bytes)
    (h4 : ¬buf.length < 4)
    (hv : readU16 buf 0 < 4 ∨ buf.length < readU16 buf 0)
    (hfuel : buf.length ≤ fuel) :
    parseNlas Qdisc.parse_with_param fuel k buf = .error .lengthError := by
  obtain ⟨f, rfl⟩ : ∃ f, fuel = f + 1 := ⟨fuel - 1, by omega⟩
  simp only [parseNlas]
  rw [if_neg h4, if_pos hv]

theorem parseNlas_step (fuel : Nat) (k buf : Bytes)
    (h4 : ¬buf.length < 4)
    (hviol : ¬(readU16 buf 0 < 4 ∨ buf.length < readU16 buf 0))
    (hfuel : buf.length ≤ fuel) :
    parseNlas Qdisc.parse_with_param fuel k buf =
      match parseTcNla Qdisc.parse_with_param k (readU16 buf 2)
          ((buf.drop 4).take (readU16 buf 0 - 4)) with
      | .error e => .error e
      | .ok (k2, nla) =>
        match parseNlas Qdisc.parse_with_param (fuel - 1) k2
            (buf.drop (align4 (readU16 buf 0))) with
        | .error e => .error e
        | .ok rest => .ok (nla :: rest) := by
  obtain ⟨f, rfl⟩ : ∃ f, fuel = f + 1 := ⟨fuel - 1, by omega⟩
  simp only [parseNlas, Nat.add_sub_cancel]
  rw [if_neg h4, if_neg hviol]
  cases parseTcNla Qdisc.parse_with_param k (readU16 buf 2)
      ((buf.drop 4).take (readU16 buf 0 - 4)) with
  | error e => rfl
  | ok kn =>
    obtain ⟨k2, nla⟩ := kn
    dsimp only
    cases parseNlas Qdisc.parse_with_param f k2 (buf.drop (align4 (readU16 buf 0))) with
    | error e => rfl
    | ok rest => rfl

theorem parseStats2Stream_nil (fuel : Nat) (buf : Bytes) (h : buf.length < 4) :
    parseStats2Stream fuel buf = .ok [] := by
  cases fuel with
  | zero => rfl
  | succ f => simp [parseStats2Stream, if_pos h]

theorem parseStats2Stream_step (fuel : Nat) (buf : Bytes)
    (h4 : ¬buf.length < 4)
    (hviol : ¬(readU16 buf 0 < 4 ∨ buf.length < readU16 buf 0))
    (hfuel : buf.length ≤ fuel) :
    parseStats2Stream fuel buf =
      match parseStats2Stream (fuel - 1) (buf.drop (align4 (readU16 buf 0))) with
      | .error e => .error e
      | .ok rest =>
        .ok (TcStats2.parse (readU16 buf 2) ((buf.drop 4).take (readU16 buf 0 - 4)) :: rest) := by
  obtain ⟨f, rfl⟩ : ∃ f, fuel = f + 1 := ⟨fuel - 1, by omega⟩
  simp only [parseStats2Stream, Nat.add_sub_cancel]
  rw [if_neg h4, if_neg hviol]

/-! ## Concrete fixtures -/

/-- The 136-byte ingress-qdisc fixture `QDISC_INGRESS_PACKET` from the
message.rs tests. -/
def QDISC_INGRESS_PACKET : Bytes :=
  [0,
   0, 0, 0,
   84, 0, 0, 0,
   0, 0, 255, 255,
   241, 255, 255, 255,
   1, 0, 0, 0,
   12, 0, 1, 0, 105, 110, 103, 114, 101, 115, 115, 0,
   4, 0, 2, 0,
   5, 0, 12, 0, 0, 0, 0, 0,
   48, 0, 7, 0,
   20, 0, 1, 0, 0, 0, 0, 0, 0, 0, 0, 0, 0, 0, 0, 0, 0, 0, 0, 0,
   24, 0, 3, 0, 0, 0, 0, 0, 0, 0, 0, 0, 0, 0, 0, 0, 0, 0, 0, 0, 0, 0, 0, 0,
   44, 0, 3, 0,
   0, 0, 0, 0, 0, 0, 0, 0, 0, 0,
   0, 0, 0, 0, 0, 0, 0, 0, 0, 0,
   0, 0, 0, 0, 0, 0, 0, 0, 0, 0,
   0, 0, 0, 0, 0, 0, 0, 0, 0, 0]

/-- The decoded form of the fixture: the header from its first 20 bytes
and the five attributes of its stream. -/
def ingressMsg : TcMessage Qdisc :=
  ⟨⟨0, 84, 0xffff0000, 0xfffffff1, 1⟩,
   [.kind ingressKind,
    .options .ingress,
    .hwOffload 0,
    .stats2 [.statsBasic (List.replicate 16 0), .statsQueue (List.replicate 20 0)],
    .stats ⟨0, 0, 0, 0, 0, 0, 0, 0⟩]⟩

/-! ## A decodable message whose re-encoding overflows the length field

A `TCA_STATS2` attribute may declare up to 65535 bytes; when its last
nested entry ends unaligned, re-encoding pads that entry, and the padded
total `4 + Σ align4(4 + value_len)` can exceed the 16-bit length field.
The buffer below decodes (outer length 65535, one nested entry of 65527
value bytes), but re-encoding writes `4 + align4(65531) = 65536`, which
wraps to 0 in the 2-byte length field, so the re-parse rejects it. -/

/-- 65527 zero bytes: the nested basic-statistics value. -/
def overflowPayload : Bytes := List.replicate 65527 0

/-- The decoded message: all-zero header, one `Stats2` attribute holding a
single basic entry of 65527 bytes. -/
def overflowMsg : TcMessage Qdisc :=
  ⟨⟨0, 0, 0, 0, 0⟩, [.stats2 [.statsBasic overflowPayload]]⟩

/-- A 65555-byte buffer that decodes to `overflowMsg`: an all-zero header,
then one attribute `length = 65535, type = TCA_STATS2` whose payload is a
single nested attribute `length = 65531, type = TCA_STATS_BASIC`. -/
def overflowBuf : Bytes :=
  List.replicate 20 0 ++ ([255, 255, 7, 0] ++ ([251, 255, 1, 0] ++ overflowPayload))

theorem overflowPayload_length : overflowPayload.length = 65527 :=
  List.length_replicate _ _

set_option maxRecDepth 10000

theorem overflow_parse :
    TcMessage.parse Qdisc.parse_with_param overflowBuf = .ok overflowMsg := by
  have hplen := overflowPayload_length
  have hP : ([251, 255, 1, 0] ++ overflowPayload).length = 65531 := by
    rw [List.length_append, hplen]
    norm_num
  have hInner : (([255, 255, 7, 0] : Bytes) ++
      ([251, 255, 1, 0] ++ overflowPayload)).length = 65535 := by
    rw [List.length_append, hP]
    norm_num
  have hBufLen : overflowBuf.length = 65555 := by
    unfold overflowBuf
    rw [List.length_append, List.length_replicate, List.length_append, hP]
    norm_num
  have hs2 : parseStats2Stream 65531 ([251, 255, 1, 0] ++ overflowPayload)
      = .ok [TcStats2.statsBasic overflowPayload] := by
    have hr0 : readU16 ([251, 255, 1, 0] ++ overflowPayload) 0 = 65531 := rfl
    have hr2 : readU16 ([251, 255, 1, 0] ++ overflowPayload) 2 = 1 := rfl
    have ha : align4 65531 = 65532 := by norm_num [align4]
    have hdn : ([251, 255, 1, 0] ++ overflowPayload).drop 65532 = [] :=
      List.drop_eq_nil_of_le (by rw [hP]; norm_num)
    have hd4 : ([251, 255, 1, 0] ++ overflowPayload).drop 4 = overflowPayload := rfl
    have hsub : (65531 : Nat) - 4 = 65527 := by norm_num
    rw [parseStats2Stream_step 65531 _ (by rw [hP]; norm_num)
      (by rw [hr0, hP]; norm_num) (le_of_eq hP)]
    rw [hr0, hr2, ha, hdn, parseStats2Stream_nil _ _ (by norm_num)]
    dsimp only
    rw [hd4, hsub, List.take_of_length_le (le_of_eq hplen)]
    rfl
  have hstep : parseTcNla Qdisc.parse_with_param [] 7 ([251, 255, 1, 0] ++ overflowPayload)
      = .ok ([], .stats2 [TcStats2.statsBasic overflowPayload]) := by
    unfold parseTcNla
    rw [show (7 : Nat) % 16384 = 7 from rfl]
    rw [if_neg (by norm_num), if_neg (by norm_num), if_neg (by norm_num),
      if_neg (by norm_num), if_neg (by norm_num), if_neg (by norm_num),
      if_neg (by norm_num), if_pos rfl]
    rw [hP, hs2]
  have houter : parseNlas Qdisc.parse_with_param 65555 []
      (([255, 255, 7, 0] : Bytes) ++ ([251, 255, 1, 0] ++ overflowPayload))
      = .ok [.stats2 [TcStats2.statsBasic overflowPayload]] := by
    have hr0 : readU16 (([255, 255, 7, 0] : Bytes) ++
        ([251, 255, 1, 0] ++ overflowPayload)) 0 = 65535 := rfl
    have hr2 : readU16 (([255, 255, 7, 0] : Bytes) ++
        ([251, 255, 1, 0] ++ overflowPayload)) 2 = 7 := rfl
    have hd4 : (([255, 255, 7, 0] : Bytes) ++
        ([251, 255, 1, 0] ++ overflowPayload)).drop 4
        = [251, 255, 1, 0] ++ overflowPayload := rfl
    have hsub : (65535 : Nat) - 4 = 65531 := by norm_num
    have ha : align4 65535 = 65536 := by norm_num [align4]
    have hdn : (([255, 255, 7, 0] : Bytes) ++
        ([251, 255, 1, 0] ++ overflowPayload)).drop 65536 = [] :=
      List.drop_eq_nil_of_le (by rw [hInner]; norm_num)
    rw [parseNlas_step 65555 [] _ (by rw [hInner]; norm_num)
      (by rw [hr0, hInner]; norm_num) (by rw [hInner]; norm_num)]
    rw [hr0, hr2, hd4, hsub, List.take_of_length_le (le_of_eq hP), hstep]
    dsimp only
    rw [ha, hdn, parseNlas_nil _ _ _ (by norm_num)]
  have hdrop20 : overflowBuf.drop 20
      = ([255, 255, 7, 0] : Bytes) ++ ([251, 255, 1, 0] ++ overflowPayload) := by
    unfold overflowBuf
    rw [drop_append_of_le _ (by rw [List.length_replicate])]
    rw [List.length_replicate]
    norm_num
  unfold TcMessage.parse
  rw [if_neg (by rw [hBufLen]; norm_num)]
  rw [hBufLen, hdrop20, houter]
  dsimp only
  rw [Except.ok.injEq]
  have hhdr : TcHeader.parse overflowBuf = ⟨0, 0, 0, 0, 0⟩ := rfl
  rw [hhdr]
  rfl

theorem overflow_reparse :
    TcMessage.parse Qdisc.parse_with_param
      (TcMessage.emit Qdisc.valueBytes overflowMsg) = .error .lengthError := by
  have hplen := overflowPayload_length
  have hV : ((TcNla.stats2 [TcStats2.statsBasic overflowPayload] :
      TcNla Qdisc).valueBytes Qdisc.valueBytes) = nlaUnit 1 overflowPayload ++ [] := rfl
  have hVlen : ((TcNla.stats2 [TcStats2.statsBasic overflowPayload] :
      TcNla Qdisc).valueBytes Qdisc.valueBytes).length = 65532 := by
    rw [hV, List.append_nil, nlaUnit_length, hplen]
    norm_num [align4]
  have hemit : TcMessage.emit Qdisc.valueBytes overflowMsg
      = TcHeader.emit ⟨0, 0, 0, 0, 0⟩ ++
        (nlaUnit 7 ((TcNla.stats2 [TcStats2.statsBasic overflowPayload] :
          TcNla Qdisc).valueBytes Qdisc.valueBytes) ++ []) := rfl
  have hrest : (nlaUnit 7 ((TcNla.stats2 [TcStats2.statsBasic overflowPayload] :
      TcNla Qdisc).valueBytes Qdisc.valueBytes) ++ []).length = 65536 := by
    rw [List.append_nil, nlaUnit_length, hVlen]
    norm_num [align4]
  have hread :
      readU16 (nlaUnit 7 ((TcNla.stats2 [TcStats2.statsBasic overflowPayload] :
        TcNla Qdisc).valueBytes Qdisc.valueBytes) ++ []) 0 = 0 := by
    have hsplit : nlaUnit 7 ((TcNla.stats2 [TcStats2.statsBasic overflowPayload] :
        TcNla Qdisc).valueBytes Qdisc.valueBytes) ++ []
        = leBytes 2 (4 + ((TcNla.stats2 [TcStats2.statsBasic overflowPayload] :
            TcNla Qdisc).valueBytes Qdisc.valueBytes).length) ++
          (leBytes 2 7 ++ (((TcNla.stats2 [TcStats2.statsBasic overflowPayload] :
            TcNla Qdisc).valueBytes Qdisc.valueBytes) ++
            (List.replicate (align4 (4 + ((TcNla.stats2 [TcStats2.statsBasic overflowPayload] :
              TcNla Qdisc).valueBytes Qdisc.valueBytes).length) -
              (4 + ((TcNla.stats2 [TcStats2.statsBasic overflowPayload] :
              TcNla Qdisc).valueBytes Qdisc.valueBytes).length)) 0 ++ []))) := by
      simp [nlaUnit]
    rw [readU16, List.drop_zero, hsplit, readLE_leBytes_append, hVlen]
    norm_num
  have hlen : (TcMessage.emit Qdisc.valueBytes overflowMsg).length = 20 + 65536 := by
    rw [hemit, List.length_append, header_emit_length, hrest]
  have hdrop20 : (TcMessage.emit Qdisc.valueBytes overflowMsg).drop 20
      = nlaUnit 7 ((TcNla.stats2 [TcStats2.statsBasic overflowPayload] :
          TcNla Qdisc).valueBytes Qdisc.valueBytes) ++ [] := by
    rw [hemit, drop_append_of_le _ (le_of_eq (header_emit_length _)),
      header_emit_length]
    simp
  unfold TcMessage.parse
  rw [if_neg (by rw [hlen]; norm_num)]
  rw [hdrop20, parseNlas_violation _ _ _ (by rw [hrest]; norm_num)
    (by rw [hread, hrest]; norm_num) (by rw [hlen, hrest]; norm_num)]

/-- A malformed-then-truncated stream: after the all-zero header, a
`TCA_HW_OFFLOAD` attribute with a two-byte payload (a malformed field),
then an attribute declaring 200 bytes with only 4 remaining (truncated). -/
def malformedThenTruncated : Bytes :=
  List.replicate 20 0 ++ ([6, 0, 12, 0, 0, 0, 0, 0] ++ [200, 0, 0, 0])

/-- A cleanly truncated buffer: the all-zero header followed by a single
attribute declaring 200 bytes with only 4 remaining. -/
def cleanTruncated : Bytes := List.replicate 20 0 ++ [200, 0, 0, 0]

/-- Error propagation from the attribute walk to the message decode. -/
theorem TcMessage.parse_error_propagate {buf : Bytes} {e : CodecError}
    (h20 : ¬buf.length < 20)
    (h : parseNlas Qdisc.parse_with_param buf.length [] (buf.drop 20) = .error e) :
    TcMessage.parse Qdisc.parse_with_param buf = .error e := by
  unfold TcMessage.parse
  rw [if_neg h20, h]

/-! ## Claims -/

/-- C1, counterexample: the round-trip claim fails as stated.  The
65555-byte buffer `overflowBuf` decodes successfully to `overflowMsg`, but
re-encoding `overflowMsg` pads its single unaligned nested statistics
entry, the `Stats2` length field `4 + align4(4 + 65527) = 65536` wraps to
0 in the 2-byte length field, and re-parsing the emitted bytes fails with
a length error instead of returning the message. -/
theorem c1_roundtrip_counterexample :
    TcMessage.parse Qdisc.parse_with_param overflowBuf = .ok overflowMsg ∧
    TcMessage.parse Qdisc.parse_with_param
      (TcMessage.emit Qdisc.valueBytes overflowMsg) = .error .lengthError ∧
    (Except.error .lengthError : Except CodecError (TcMessage Qdisc)) ≠ .ok overflowMsg :=
  ⟨overflow_parse, overflow_reparse, by simp⟩

/-- C1, amended: for every message decoded from some buffer whose
attributes' re-encoded values each fit the 16-bit TLV length field
(`4 + value_len ≤ 65535`; only an oversized `Stats2` re-encoding can
violate this), emitting the message produces exactly `buffer_len` bytes
and parsing them back yields a structurally equal message, catch-all raw
payloads included. -/
theorem c1_roundtrip_amended (buf : Bytes) (m : TcMessage Qdisc)
    (h : TcMessage.parse Qdisc.parse_with_param buf = .ok m)
    (hfit : ∀ n ∈ m.nlas, 4 + n.value_len Qdisc.value_len ≤ 65535) :
    TcMessage.parse Qdisc.parse_with_param (TcMessage.emit Qdisc.valueBytes m) = .ok m ∧
    (TcMessage.emit Qdisc.valueBytes m).length = m.buffer_len Qdisc.value_len := by
  obtain ⟨hh, hw⟩ := TcMessage.parse_ok_wf h
  exact ⟨message_parse_emit m hh hw hfit, message_emit_length m⟩

/-- C1, witness: the amended round trip at the 136-byte ingress fixture. -/
theorem c1_roundtrip_amended_witness :
    TcMessage.parse Qdisc.parse_with_param (TcMessage.emit Qdisc.valueBytes ingressMsg)
      = .ok ingressMsg ∧
    (TcMessage.emit Qdisc.valueBytes ingressMsg).length
      = ingressMsg.buffer_len Qdisc.value_len :=
  c1_roundtrip_amended QDISC_INGRESS_PACKET ingressMsg (by rfl) (by decide)

/-- C2: the stream parse is one left-to-right pass carrying the last Kind
string (initially empty).  A stream opening with `Kind("ingress")` then a
zero-length Options attribute decodes those two to the kind string and
the Ingress marker and continues under kind `"ingress"`; a stream opening
with an Options attribute and no preceding Kind decodes it to the opaque
fallback holding the raw payload. -/
theorem c2_kind_dispatch :
    (∀ rest : Bytes,
      parseNlas Qdisc.parse_with_param
          (TcNla.emit Qdisc.valueBytes (.kind ingressKind) ++
            (TcNla.emit Qdisc.valueBytes (.options .ingress) ++ rest)).length []
          (TcNla.emit Qdisc.valueBytes (.kind ingressKind) ++
            (TcNla.emit Qdisc.valueBytes (.options .ingress) ++ rest))
        = (parseNlas Qdisc.parse_with_param rest.length ingressKind rest).map
            (fun ns => .kind ingressKind :: .options Qdisc.ingress :: ns)) ∧
    (∀ p rest : Bytes, 4 + p.length ≤ 65535 →
      parseNlas Qdisc.parse_with_param (nlaUnit 2 p ++ rest).length []
          (nlaUnit 2 p ++ rest)
        = (parseNlas Qdisc.parse_with_param rest.length [] rest).map
            (fun ns => .options (Qdisc.other p) :: ns)) := by
  constructor
  · intro rest
    set A := TcNla.emit Qdisc.valueBytes (TcNla.kind (α := Qdisc) ingressKind) with hA
    set B := TcNla.emit Qdisc.valueBytes (TcNla.options Qdisc.ingress) with hB
    have hAlen : A.length = 12 := rfl
    have hBlen : B.length = 4 := rfl
    have hstep1 := parseNlas_cons_emit [] (.kind ingressKind) (B ++ rest)
      (A ++ (B ++ rest)).length trivial trivial (by decide)
      le_rfl
    rw [← hA] at hstep1
    rw [hstep1]
    have hupd1 : updKind ([] : Bytes) (TcNla.kind (α := Qdisc) ingressKind)
        = ingressKind := rfl
    rw [hupd1]
    have hopt2 : optStateOK ingressKind (TcNla.options Qdisc.ingress) := by
      simp [optStateOK]
    have hstep2 := parseNlas_cons_emit ingressKind (.options .ingress) rest
      ((A ++ (B ++ rest)).length - 1) trivial hopt2 (by decide)
      (by
        rw [List.length_append, List.length_append, hAlen, hBlen]
        rw [List.length_append, hBlen]
        omega)
    rw [← hB] at hstep2
    rw [hstep2]
    have hupd2 : updKind ingressKind (TcNla.options Qdisc.ingress) = ingressKind := rfl
    rw [hupd2]
    rw [parseNlas_fuelIrr Qdisc.parse_with_param ((A ++ (B ++ rest)).length - 1 - 1)
      rest.length ingressKind rest
      (by
        rw [List.length_append, List.length_append, hAlen, hBlen]
        omega)
      le_rfl]
    cases parseNlas Qdisc.parse_with_param rest.length ingressKind rest with
    | error e => rfl
    | ok ns => rfl
  · intro p rest hp
    have hopt : optStateOK [] (TcNla.options (Qdisc.other p)) := by
      have hne : ([] : Bytes) ≠ ingressKind := by decide
      simp [optStateOK, hne]
    have hfit : fitsU16 (.options (Qdisc.other p)) := hp
    have hee : TcNla.emit Qdisc.valueBytes (TcNla.options (Qdisc.other p))
        = nlaUnit 2 p := rfl
    have hstep := parseNlas_cons_emit [] (.options (Qdisc.other p)) rest
      (nlaUnit 2 p ++ rest).length trivial hopt hfit (by rw [hee])
    rw [hee] at hstep
    rw [hstep]
    have hupd : updKind ([] : Bytes) (TcNla.options (Qdisc.other p)) = [] := rfl
    rw [hupd]
    rw [parseNlas_fuelIrr Qdisc.parse_with_param ((nlaUnit 2 p ++ rest).length - 1)
      rest.length [] rest
      (by
        have := nlaUnit_ge_four 2 p
        rw [List.length_append]
        omega)
      le_rfl]
    cases parseNlas Qdisc.parse_with_param rest.length [] rest with
    | error e => rfl
    | ok ns => rfl

/-- C2, witness: both parts at concrete streams — the two-attribute
ingress stream alone, and a lone Options attribute with payload `[9]`. -/
theorem c2_kind_dispatch_witness :
    parseNlas Qdisc.parse_with_param
        (TcNla.emit Qdisc.valueBytes (.kind ingressKind) ++
          (TcNla.emit Qdisc.valueBytes (.options .ingress) ++ [])).length []
        (TcNla.emit Qdisc.valueBytes (.kind ingressKind) ++
          (TcNla.emit Qdisc.valueBytes (.options .ingress) ++ []))
      = .ok [.kind ingressKind, .options Qdisc.ingress] ∧
    parseNlas Qdisc.parse_with_param (nlaUnit 2 [9] ++ []).length [] (nlaUnit 2 [9] ++ [])
      = .ok [.options (Qdisc.other [9])] := by
  constructor
  · rw [c2_kind_dispatch.1 []]
    rfl
  · rw [c2_kind_dispatch.2 [9] [] (by norm_num)]
    rfl

/-- C3: the kind-parameterized qdisc resolver is total — it returns `Ok`
for every kind string and payload, the Ingress marker exactly under kind
`"ingress"`, and the opaque fallback for every other kind, including the
never-observed empty string. -/
theorem c3_resolver_total :
    (∀ kind payload : Bytes, Qdisc.parse_with_param payload kind
        = .ok (if kind = ingressKind then Qdisc.ingress else Qdisc.other payload)) ∧
    (∀ payload : Bytes, Qdisc.parse_with_param payload ingressKind = .ok Qdisc.ingress) ∧
    (∀ kind payload : Bytes, kind ≠ ingressKind →
      Qdisc.parse_with_param payload kind = .ok (Qdisc.other payload)) ∧
    (∀ payload : Bytes, Qdisc.parse_with_param payload [] = .ok (Qdisc.other payload)) := by
  refine ⟨fun _ _ => rfl, fun payload => ?_, fun kind payload hne => ?_, fun payload => ?_⟩
  · simp [Qdisc.parse_with_param]
  · simp [Qdisc.parse_with_param, hne]
  · have hne : ([] : Bytes) ≠ ingressKind := by decide
    simp [Qdisc.parse_with_param, hne]

/-- C3, witness: the resolver at the unrecognized kind `"h"` (byte 104). -/
theorem c3_resolver_total_witness :
    Qdisc.parse_with_param [7] [104] = .ok (Qdisc.other [7]) :=
  c3_resolver_total.2.2.1 [104] [7] (by decide)

/-- C4: the builder path is strict — `Qdisc::new` yields the Ingress
variant for `"ingress"` and raises the unsupported-construction condition
(never a silent opaque fallback) for every other kind, while decode never
raises that condition: the resolver never fails at all, and a failed
message decode carries only length or malformed-field errors. -/
theorem c4_builder_strict :
    Qdisc.new ingressKind = .ok Qdisc.ingress ∧
    (∀ k : Bytes, k ≠ ingressKind → Qdisc.new k = .error .unsupportedConstruction) ∧
    (∀ k v : Bytes, Qdisc.new k ≠ .ok (Qdisc.other v)) ∧
    (∀ k payload : Bytes, ∀ e : CodecError, Qdisc.parse_with_param payload k ≠ .error e) ∧
    (∀ buf : Bytes, ∀ e : CodecError,
      TcMessage.parse Qdisc.parse_with_param buf = .error e →
      e ≠ .unsupportedConstruction) := by
  refine ⟨rfl, fun k hne => ?_, fun k v => ?_, fun k payload e => ?_, fun buf e h => ?_⟩
  · simp [Qdisc.new, hne]
  · unfold Qdisc.new
    split
    · simp
    · simp
  · simp [Qdisc.parse_with_param]
  · unfold TcMessage.parse at h
    split at h
    · rw [Except.error.injEq] at h
      subst h
      simp
    · split at h
      · rename_i e2 hns
        rw [Except.error.injEq] at h
        subst h
        rcases parseNlas_error_kind _ _ _ _ hns with rfl | rfl <;> simp
      · simp at h

/-- C4, witness: the builder rejects the unrecognized kind `"h"` with the
unsupported-construction condition, and the decode error on the empty
buffer (a length error) is not that condition. -/
theorem c4_builder_strict_witness :
    Qdisc.new [104] = .error .unsupportedConstruction ∧
    CodecError.lengthError ≠ CodecError.unsupportedConstruction :=
  ⟨c4_builder_strict.2.1 [104] (by decide),
   c4_builder_strict.2.2.2.2 [] .lengthError (by rfl)⟩

/-- C5: the encoded buffer length of every attribute is
`align_up(4 + value_len, 4)`; a message's emitted length is the 20-byte
header plus the sum of the attributes' padded encoded lengths; and the
qdisc options value length is 0 for the Ingress arm and the payload byte
length for the opaque arm. -/
theorem c5_length_arith :
    (∀ n : TcNla Qdisc, (TcNla.emit Qdisc.valueBytes n).length
        = align4 (4 + n.value_len Qdisc.value_len)) ∧
    (∀ m : TcMessage Qdisc, (TcMessage.emit Qdisc.valueBytes m).length
        = 20 + (m.nlas.map fun n => (TcNla.emit Qdisc.valueBytes n).length).sum) ∧
    Qdisc.value_len Qdisc.ingress = 0 ∧
    (∀ p : Bytes, Qdisc.value_len (Qdisc.other p) = p.length) := by
  refine ⟨fun n => nla_emit_length n, fun m => ?_, rfl, fun _ => rfl⟩
  rw [TcMessage.emit, List.length_append, header_emit_length, List.length_flatten,
    List.map_map]
  rfl

/-- C6, counterexample: the bounds-rejection claim does not always surface
a length error.  `malformedThenTruncated` is truncated in the claim's
sense (its raw walk meets a declared length violating
`4 ≤ length ≤ remaining`), yet decoding fails with the malformed-field
error of the earlier two-byte `TCA_HW_OFFLOAD` payload, not with
LengthError. -/
theorem c6_bounds_counterexample :
    rawTruncated malformedThenTruncated.length (malformedThenTruncated.drop 20) = true ∧
    TcMessage.parse Qdisc.parse_with_param malformedThenTruncated
      = .error .malformedField ∧
    CodecError.malformedField ≠ CodecError.lengthError :=
  ⟨rfl, rfl, by decide⟩

/-- C6, amended: decoding a buffer whose attribute region is truncated
before the declared end of an attribute always fails (the parse is total,
so it never reads past the buffer or panics), and it fails with a length
error whenever the parser actually reaches the truncated attribute, i.e.
when every earlier attribute decodes successfully. -/
theorem c6_bounds_amended (buf : Bytes)
    (h20 : 20 ≤ buf.length)
    (htr : rawTruncated buf.length (buf.drop 20) = true) :
    (∃ e, TcMessage.parse Qdisc.parse_with_param buf = .error e) ∧
    (reachesTrunc Qdisc.parse_with_param buf.length [] (buf.drop 20) = true →
      TcMessage.parse Qdisc.parse_with_param buf = .error .lengthError) := by
  constructor
  · obtain ⟨e, he⟩ := rawTruncated_error buf.length [] _ htr
    exact ⟨e, TcMessage.parse_error_propagate (by omega) he⟩
  · intro hr
    exact TcMessage.parse_error_propagate (by omega)
      (reachesTrunc_lengthError buf.length [] _ hr)

/-- C6, witness: the amended claim at the cleanly truncated buffer. -/
theorem c6_bounds_amended_witness :
    (∃ e, TcMessage.parse Qdisc.parse_with_param cleanTruncated = .error e) ∧
    (reachesTrunc Qdisc.parse_with_param cleanTruncated.length []
        (cleanTruncated.drop 20) = true →
      TcMessage.parse Qdisc.parse_with_param cleanTruncated = .error .lengthError) :=
  c6_bounds_amended cleanTruncated (by decide) (by decide)

/-- C7: the 136-byte ingress fixture decodes to the header
`{family = 0, index = 84, handle = 0xFFFF0000, parent = 0xFFFFFFF1,
info = 1}` and exactly the five attributes Kind("ingress"),
Options(Ingress), HardwareOffload(0), Stats2([Basic 16 zero bytes,
Queue 20 zero bytes]), Stats(40 zero bytes); and re-encoding the header
with the first two attributes reproduces the fixture's first 36 bytes. -/
theorem c7_concrete_packet :
    TcMessage.parse Qdisc.parse_with_param QDISC_INGRESS_PACKET = .ok ingressMsg ∧
    TcMessage.emit Qdisc.valueBytes
        ⟨⟨0, 84, 0xffff0000, 0xfffffff1, 1⟩, [.kind ingressKind, .options .ingress]⟩
      = QDISC_INGRESS_PACKET.take 36 :=
  ⟨rfl, rfl⟩

/-- C8: class and filter options decoding ignores the kind string — for
every kind and payload both resolvers return `Ok` of the opaque variant
holding exactly the raw payload bytes. -/
theorem c8_class_filter_opaque :
    ∀ kind payload : Bytes,
      TcClass.parse_with_param payload kind = .ok (TcClass.other payload) ∧
      TcFilter.parse_with_param payload kind = .ok (TcFilter.other payload) :=
  fun _ _ => ⟨rfl, rfl⟩

/-- C9: `TcMessage::<A>::default()` never terminates — its struct-update
base `..Default::default()` recursively invokes the very `default` being
defined, so the fueled embedding of the recursion produces no value at
any recursion depth, for every payload type. -/
theorem c9_default_diverges :
    ∀ (α : Type) (fuel : Nat), TcMessage.defaultFuel α fuel = none := by
  intro α fuel
  induction fuel with
  | zero => rfl
  | succ f ih => simp [TcMessage.defaultFuel, ih]

/-- C10: `into_parts` and `from_parts` are mutually inverse for every
payload type, every message, and every header and attribute sequence. -/
theorem c10_parts_inverse :
    (∀ (α : Type) (m : TcMessage α),
      TcMessage.from_parts m.into_parts.1 m.into_parts.2 = m) ∧
    (∀ (α : Type) (h : TcHeader) (nlas : List (TcNla α)),
      (TcMessage.from_parts h nlas).into_parts = (h, nlas)) :=
  ⟨fun _ _ => rfl, fun _ _ _ => rfl⟩

end Netlink
